import Mathlib

/-!
# reedsolomon-0.1: the codec facade of `reedsolomon.c`

A shallow embedding of the Reed-Solomon codec facade (`reedsolomon.c`) and of
the CCSDS encoder wrapper (`librs/encode_rs_ccsds.c`, `librs/fixed.h`).

Conventions of the embedding

* C `int` values are `Int`; the facade only ever computes with values far from
  the 32-bit limits once a codec has been accepted, so no wrap-around is
  modelled. `a << s` is `a * 2 ^ s`.
* A byte string (`unsigned char *` plus a length) is a `List Nat`; the
  predicate `IsByteString` says that every element is below 256.
* A buffer that a library routine fills or overwrites is returned as an
  index function (`parity j` is the content of `parity[j]` after the call).
* A function that can raise a Python exception returns `Except RsError _`;
  `RsError` has one constructor per raise site.
-/

namespace ReedSolomon

/-! ## Errors -/

/-- One constructor per place where `reedsolomon.c` raises an exception. -/
inductive RsError where
  /-- ValueError: No defaults available for symsize=%d -/
  | noDefaults
  /-- ValueError: symsize <= 0 -/
  | symsizeNonPositive
  /-- ValueError: symsize > 32 -/
  | symsizeOver32
  /-- ValueError: symsize > 8 -/
  | symsizeOver8
  /-- ValueError: n < 2 -/
  | nBelow2
  /-- ValueError: n > 2 ** symsize - 1 -/
  | nOverField
  /-- ValueError: n > 255 -/
  | nOver255
  /-- ValueError: k >= n -/
  | kNotBelowN
  /-- ValueError: n != k + nroots -/
  | nrootsMismatch
  /-- ValueError: Invalid parameters for the ccsds variant -/
  | ccsdsParams
  /-- ValueError: Variant not recognized: %s -/
  | variantUnknown
  /-- MemoryError (PyErr_NoMemory) -/
  | noMemory
  /-- ValueError: This codec requires symbols to be less than %d -/
  | symbolRange
  /-- ValueError: Erasure indexes must be non-negative integers less than %d -/
  | erasureRange
  /-- UncorrectableError: Too many errors or erasures in input -/
  | tooManyErrors
  /-- UncorrectableError: Corrupted input -/
  | corruptedInput
  /-- ValueError: String to encode must contain exactly %d bytes -/
  | encodeLength
  /-- ValueError: String to decode must contain exactly %d bytes -/
  | decodeLength
  /-- ValueError: Expected %d strings, but got %d strings -/
  | chunkCount
  /-- ValueError: Expected %d input strings, but got %d strings -/
  | inputCount
  /-- ValueError: The input strings have unequal length -/
  | unequalLength
  /-- SystemError: a negative size passed to PyString_FromStringAndSize,
  PyTuple_New or PyList_New -/
  | negativeSize
  /-- ValueError: datadelta and oldparity must have the same length -/
  | updateLength
  /-- ValueError: parityindex < self.k -/
  | parityIndexLow
  /-- ValueError: parityindex >= self.n -/
  | parityIndexHigh
  /-- ValueError: dataindex < 0 -/
  | dataIndexLow
  /-- ValueError: dataindex >= self.k -/
  | dataIndexHigh
  deriving DecidableEq

/-- The two raise sites that use the exception type `UncorrectableError`. -/
def RsError.isUncorrectable : RsError → Bool
  | .tooManyErrors => true
  | .corruptedInput => true
  | _ => false

/-! ## The library interface -/

/-- The control block `void *rs` returned by `init_rs_char`: the library keeps
the six construction parameters (and tables derived from them). -/
structure Rs where
  symsize : Int
  gfpoly : Int
  fcr : Int
  prim : Int
  nroots : Int
  pad : Int
  deriving DecidableEq

/-- What a library decoder leaves behind: the returned count (negative on
failure), the data buffer after the call and the position array after the
call. -/
structure DecodeOut where
  count : Int
  data : Nat → Nat
  eras_pos : Nat → Int

/-- The librs routines that `reedsolomon.c` and `encode_rs_ccsds.c` call but
that are not part of the sources; they are parameters of the embedding.

An encoder receives the data symbols and answers the parity buffer after the
call (it clears the parity first and leaves the data untouched); the fixed
coder also receives `pad`. A decoder receives the codeword, the first
`no_eras` entries of the position array, `no_eras` (and `pad` or the control
block). `Taltab` and `Tal1tab` are the dual-basis tables of `ccsds.h`. -/
structure Librs where
  encode_rs_8 : List Nat → Int → Nat → Nat
  decode_rs_8 : List Nat → List Int → Int → Int → DecodeOut
  decode_rs_ccsds : List Nat → List Int → Int → Int → DecodeOut
  init_rs_char : Int → Int → Int → Int → Int → Int → Option Rs
  encode_rs_char : Rs → List Nat → Nat → Nat
  decode_rs_char : Rs → List Nat → List Int → Int → DecodeOut
  Taltab : Nat → Nat
  Tal1tab : Nat → Nat
  init_rs_int : Int → Int → Int → Int → Int → Int → Option Rs

/-! ## `librs/fixed.h` and `librs/encode_rs_ccsds.c` -/

/-- The constant `MM` of fixed.h. -/
def MM : Int := 8
/-- The constant `NN` of fixed.h. -/
def NN : Int := 255
/-- The constant `NROOTS` of fixed.h. -/
def NROOTS : Int := 32
/-- The constant `FCR` of fixed.h. -/
def FCR : Int := 112
/-- The constant `PRIM` of fixed.h. -/
def PRIM : Int := 11
/-- The constant `IPRIM` of fixed.h. -/
def IPRIM : Int := 116

/-- One iteration of the loop of `mod255`: `x -= 255` followed by
`x = (x >> 8) + (x & 255)`. -/
def mod255_step (x : Int) : Int :=
  let x := x - 255
  (x >>> 8) + Int.land x 255

/-- The function `mod255` of fixed.h: the loop runs while `x >= 255`. -/
def mod255 (x : Int) : Int :=
  if 255 ≤ x then mod255 (mod255_step x) else x
termination_by x.toNat
decreasing_by
  rename_i h
  obtain ⟨m, hm⟩ : ∃ m : Nat, x - 255 = (m : Int) := ⟨(x - 255).toNat, by omega⟩
  have h1 : ((m : Int) >>> 8) = ((m >>> 8 : Nat) : Int) := rfl
  have h2 : Int.land (m : Int) 255 = ((m &&& 255 : Nat) : Int) := rfl
  have h3 : m >>> 8 = m / 256 := Nat.shiftRight_eq_div_pow m 8
  have h4 : m &&& 255 = m % 256 := Nat.and_pow_two_sub_one_eq_mod m 8
  simp only [mod255_step, hm, h1, h2, h3, h4]
  omega

/-- What `encode_rs_ccsds` leaves behind: the caller's `data` buffer and the
`parity` buffer after the call. -/
structure CcsdsOut where
  data : List Nat
  parity : Nat → Nat

/-- The first loop of `encode_rs_ccsds`: the scratch buffer `cdata` receives
`Tal1tab[data[i]]` for `i < NN - NROOTS - pad`. -/
def ccsds_cdata (L : Librs) (data : List Nat) (pad : Int) : List Nat :=
  (List.range (NN - NROOTS - pad).toNat).map
    (fun i => L.Tal1tab (data.getD i 0))

/-- The function `encode_rs_ccsds(data, parity, pad)`: the first
`NN - NROOTS - pad` data symbols go through `Tal1tab` into the scratch buffer
`cdata`, the fixed encoder runs on `cdata`, and the first `NROOTS` parity
symbols go through `Taltab`. Nothing is written to `data`. -/
def encode_rs_ccsds (L : Librs) (data : List Nat) (pad : Int) : CcsdsOut :=
  let cdata := ccsds_cdata L data pad
  let parity := L.encode_rs_8 cdata pad
  { data := data,
    parity := fun i =>
      if (i : Int) < NROOTS then L.Taltab (parity i) else parity i }

/-! ## The codec object -/

/-- The three function pairs a string codec can hold in
`char_encode` / `char_decode`. -/
inductive CharCoder where
  | CHAR
  | CCSDS
  | GENERAL_CHAR
  deriving DecidableEq

/-- The C struct `Codec`. `coder` stands for the pointer pair
`char_encode`/`char_decode` (`none` is NULL), `rs` for the control block
pointer (`none` is NULL). -/
structure Codec where
  coder : Option CharCoder
  rs : Option Rs
  integertype : Bool
  n : Int
  k : Int
  symsize : Int
  gfpoly : Int
  fcr : Int
  prim : Int
  nroots : Int
  pad : Int
  mask : Int
  variant : String
  deriving DecidableEq

/-- An entry of `default_rs_parameters`. -/
structure RsDefault where
  gfpoly : Int
  fcr : Int
  prim : Int
  deriving DecidableEq

/-- The table `default_rs_parameters`, indexed by symbol size. -/
def default_rs_parameters : List RsDefault :=
  [ ⟨-1, -1, -1⟩, ⟨-1, -1, -1⟩, ⟨0x7, 1, 1⟩, ⟨0xb, 1, 1⟩, ⟨0x13, 1, 1⟩,
    ⟨0x25, 1, 1⟩, ⟨0x43, 1, 1⟩, ⟨0x89, 1, 1⟩, ⟨0x187, 112, 11⟩, ⟨0x211, 1, 1⟩,
    ⟨0x409, 1, 1⟩, ⟨0x805, 1, 1⟩, ⟨0x1053, 1, 1⟩, ⟨0x201b, 1, 1⟩,
    ⟨0x4443, 1, 1⟩, ⟨0x8003, 1, 1⟩, ⟨0x1100b, 1, 1⟩ ]

/-- The constant `DEFAULT_RS_PARAM_COUNT`. -/
def DEFAULT_RS_PARAM_COUNT : Int := 17

/-- The table lookup `default_rs_parameters[symsize]`. -/
def default_rs_parameter (symsize : Int) : RsDefault :=
  default_rs_parameters.getD symsize.toNat ⟨-1, -1, -1⟩

/-- The value that a 32-bit `int` holds after a wider value is stored in it:
the value is reduced modulo `2 ^ 32` into `[-2 ^ 31, 2 ^ 31)`. -/
def wrap32 (x : Int) : Int :=
  (x + 2147483648) % 4294967296 - 2147483648

/-- The C expression `a << s` on 32-bit `int`. The result is kept to 32 bits
and the shift count is taken modulo 32, as the shift instruction of the
processor does it (C itself leaves a count outside `0..31` undefined); for
`0 ≤ s ≤ 31` and a result that fits, this is `a * 2 ^ s`. -/
def shl (a s : Int) : Int := wrap32 (a * 2 ^ (s % 32).toNat)

/-- The function `codec_fill_params`: fill unspecified defaults, then derive
`nroots` and `pad`. The shift is the one of a 32-bit `int`; the subtractions
are exact (C leaves their overflow undefined). -/
def codec_fill_params (self : Codec) : Except RsError Codec :=
  if self.gfpoly = -1 ∨ self.fcr = -1 ∨ self.prim = -1 then
    if self.symsize < 0 ∨ self.symsize ≥ DEFAULT_RS_PARAM_COUNT ∨
        (default_rs_parameter self.symsize).gfpoly < 0 then
      .error .noDefaults
    else
      let gfpoly := if self.gfpoly = -1 then
        (default_rs_parameter self.symsize).gfpoly else self.gfpoly
      let fcr := if self.fcr = -1 then
        (default_rs_parameter self.symsize).fcr else self.fcr
      let prim := if self.prim = -1 then
        (default_rs_parameter self.symsize).prim else self.prim
      .ok { self with
        gfpoly := gfpoly, fcr := fcr, prim := prim,
        nroots := self.n - self.k,
        pad := shl 1 self.symsize - self.n - 1 }
  else
    .ok { self with
      nroots := self.n - self.k,
      pad := shl 1 self.symsize - self.n - 1 }

/-- The function `codec_check_params`. -/
def codec_check_params (self : Codec) : Except RsError Unit :=
  if self.symsize ≤ 0 then .error .symsizeNonPositive
  else if self.integertype ∧ self.symsize > 32 then .error .symsizeOver32
  else if ¬ self.integertype ∧ self.symsize > 8 then .error .symsizeOver8
  else if self.n < 2 then .error .nBelow2
  else if self.n > shl 1 self.symsize - 1 then .error .nOverField
  else if ¬ self.integertype ∧ self.n > 255 then .error .nOver255
  else if self.k ≥ self.n then .error .kNotBelowN
  else if self.n ≠ self.k + self.nroots then .error .nrootsMismatch
  else .ok ()

/-- The function `stringcodec_new`. The arguments are the values held by the
object after argument parsing: an omitted `symsize` is 8, an omitted `gfpoly`,
`fcr` or `prim` is -1, an omitted `variant` is the string char. -/
def stringcodec_new (L : Librs) (n k symsize gfpoly fcr prim : Int)
    (variant : String) : Except RsError Codec :=
  let self0 : Codec :=
    { coder := none, rs := none, integertype := false, n := n, k := k,
      symsize := symsize, gfpoly := gfpoly, fcr := fcr, prim := prim,
      nroots := 0, pad := 0, mask := 0, variant := "" }
  match codec_fill_params self0 with
  | .error e => .error e
  | .ok self =>
    let using_defaults : Bool :=
      self.symsize = 8 ∧ self.gfpoly = 0x187 ∧ self.fcr = 112 ∧
        self.prim = 11 ∧ self.nroots = 32
    let selected : Except RsError (Bool × CharCoder) :=
      if variant = "char" then
        if using_defaults then .ok (false, .CHAR) else .ok (true, .GENERAL_CHAR)
      else if variant = "ccsds" then
        if ¬ using_defaults then .error .ccsdsParams else .ok (false, .CCSDS)
      else .error .variantUnknown
    match selected with
    | .error e => .error e
    | .ok (create_rs, coder) =>
      let self := { self with coder := some coder, variant := variant }
      match codec_check_params self with
      | .error e => .error e
      | .ok () =>
        if create_rs then
          match L.init_rs_char self.symsize self.gfpoly self.fcr self.prim
              self.nroots self.pad with
          | none => .error .noMemory
          | some rs =>
            .ok { self with rs := some rs,
                            mask := Int.land (shl 0xff self.symsize) 0xff }
        else
          .ok { self with rs := none, mask := 0 }

/-- The dispatch `self->char_encode(self, data, parity)` through the three
wrappers `char_encode_CHAR`, `char_encode_CCSDS`, `char_encode_GENERAL_CHAR`;
the result is the parity buffer after the call. A codec without function pair
or without control block has nothing to call; the embedding answers an
all-zero buffer there. -/
def char_encode (L : Librs) (self : Codec) (data : List Nat) : Nat → Nat :=
  match self.coder with
  | some .CHAR => L.encode_rs_8 data self.pad
  | some .CCSDS => (encode_rs_ccsds L data self.pad).parity
  | some .GENERAL_CHAR =>
    match self.rs with
    | some rs => L.encode_rs_char rs data
    | none => fun _ => 0
  | none => fun _ => 0

/-- The dispatch `self->char_decode(self, data, eras_pos, no_eras)` through
`char_decode_CHAR`, `char_decode_CCSDS`, `char_decode_GENERAL_CHAR`. A codec
without function pair or control block has nothing to call; the embedding
answers a failure count there. -/
def char_decode (L : Librs) (self : Codec) (data : List Nat)
    (eras_pos : List Int) (no_eras : Int) : DecodeOut :=
  match self.coder with
  | some .CHAR => L.decode_rs_8 data eras_pos no_eras self.pad
  | some .CCSDS => L.decode_rs_ccsds data eras_pos no_eras self.pad
  | some .GENERAL_CHAR =>
    match self.rs with
    | some rs => L.decode_rs_char rs data eras_pos no_eras
    | none => ⟨-1, fun i => data.getD i 0, fun i => eras_pos.getD i 0⟩
  | none => ⟨-1, fun i => data.getD i 0, fun i => eras_pos.getD i 0⟩

/-- The function `intcodec_new`. The arguments are the values held by the
object after argument parsing: an omitted `symsize` is 8, an omitted `gfpoly`,
`fcr` or `prim` is -1. -/
def intcodec_new (L : Librs) (n k symsize gfpoly fcr prim : Int) :
    Except RsError Codec :=
  let self0 : Codec :=
    { coder := none, rs := none, integertype := true, n := n, k := k,
      symsize := symsize, gfpoly := gfpoly, fcr := fcr, prim := prim,
      nroots := 0, pad := 0, mask := 0, variant := "int" }
  match codec_fill_params self0 with
  | .error e => .error e
  | .ok self =>
    match codec_check_params self with
    | .error e => .error e
    | .ok () =>
      match L.init_rs_int self.symsize self.gfpoly self.fcr self.prim
          self.nroots self.pad with
      | none => .error .noMemory
      | some rs =>
        .ok { self with rs := some rs, mask := shl (-1) self.symsize,
                        coder := none }

/-- The function `intcodec_make_array`: the first symbol with a bit of the
mask set raises the range error, every other symbol is stored as it is. -/
def intcodec_make_array (self : Codec) : List Int → Except RsError (List Int)
  | [] => .ok []
  | v :: rest =>
    if Int.land v self.mask ≠ 0 then .error .symbolRange
    else
      match intcodec_make_array self rest with
      | .error e => .error e
      | .ok data => .ok (v :: data)

/-! ## Symbol and erasure checks -/

/-- The function `stringcodec_checksymbols`: with a non-zero mask, the first
symbol with a bit of the mask set raises the range error. -/
def stringcodec_checksymbols (self : Codec) (data : List Nat) :
    Except RsError Unit :=
  if self.mask ≠ 0 then
    if data.any (fun b => decide (Int.land (b : Int) self.mask ≠ 0)) then
      .error .symbolRange
    else .ok ()
  else .ok ()

/-- What `create_erasure_array` hands back: the initialised entries of the
position array, `*no_eras_out` and `*array_size_out` (in bytes). -/
structure ErasureArray where
  eras_pos : List Int
  no_eras : Int
  array_size : Int
  deriving DecidableEq

/-- The value that `PyInt_AsLong` returns for a Python integer where `long`
has 64 bits: the integer itself when it fits, and -1 (with an overflow error
pending) when it does not. -/
def PyInt_AsLong (x : Int) : Int :=
  if -9223372036854775808 ≤ x ∧ x < 9223372036854775808 then x else -1

/-- The loop of `create_erasure_array` over the supplied indexes. The
assignment `v = PyInt_AsLong(tmp)` stores a `long` in the `int v`, which keeps
its low 32 bits; `v` outside `[0, n)` raises, every other `v` is stored with
the pad added. -/
def fill_erasures (self : Codec) : List Int → Except RsError (List Int)
  | [] => .ok []
  | tmp :: rest =>
    let v : Int := wrap32 (PyInt_AsLong tmp)
    if v < 0 ∨ v ≥ self.n then .error .erasureRange
    else
      match fill_erasures self rest with
      | .error e => .error e
      | .ok tail => .ok ((self.pad + v) :: tail)

/-- The function `create_erasure_array`; `erasures = none` is the NULL
argument. The array has room for `max nroots no_eras` ints of 4 bytes. -/
def create_erasure_array (self : Codec) (erasures : Option (List Int)) :
    Except RsError ErasureArray :=
  match erasures with
  | none => .ok ⟨[], 0, 4 * self.nroots⟩
  | some e =>
    let no_eras : Int := e.length
    let alloc_eras := if self.nroots < no_eras then no_eras else self.nroots
    match fill_erasures self e with
    | .error err => .error err
    | .ok eras_pos => .ok ⟨eras_pos, no_eras, 4 * alloc_eras⟩

/-- The loop of `convert_decode_result` over `i < count`: the de-padded index
`eras_pos[i] - pad` raises when negative and is appended otherwise. -/
def convert_corrections (self : Codec) (eras_pos : Nat → Int) :
    List Nat → Except RsError (List Int)
  | [] => .ok []
  | i :: rest =>
    let index := eras_pos i - self.pad
    if index < 0 then .error .corruptedInput
    else
      match convert_corrections self eras_pos rest with
      | .error e => .error e
      | .ok tail => .ok (index :: tail)

/-- The function `convert_decode_result`: the pair of the output and the list
of the `count` de-padded positions. -/
def convert_decode_result (self : Codec) (output : List Nat)
    (eras_pos : Nat → Int) (count : Int) :
    Except RsError (List Nat × List Int) :=
  if count < 0 then .error .negativeSize
  else
    match convert_corrections self eras_pos (List.range count.toNat) with
    | .error e => .error e
    | .ok corrections => .ok (output, corrections)

/-! ## Single codewords -/

/-- The function `stringcodec_encode`: the output string has `n` bytes, the
source is copied to its first `k` bytes and the encoder fills the rest
(`parity = data + k`). -/
def stringcodec_encode (L : Librs) (self : Codec) (src : List Nat) :
    Except RsError (List Nat) :=
  if (src.length : Int) ≠ self.k then .error .encodeLength
  else
    match stringcodec_checksymbols self src with
    | .error e => .error e
    | .ok () =>
      if self.n < 0 then .error .negativeSize
      else
        let parity := char_encode L self src
        .ok (src ++ (List.range (self.n - self.k).toNat).map parity)

/-- The function `stringcodec_decode`; `erasures = none` is the omitted
argument. -/
def stringcodec_decode (L : Librs) (self : Codec) (src : List Nat)
    (erasures : Option (List Int)) : Except RsError (List Nat × List Int) :=
  if (src.length : Int) ≠ self.n then .error .decodeLength
  else
    match stringcodec_checksymbols self src with
    | .error e => .error e
    | .ok () =>
      match create_erasure_array self erasures with
      | .error e => .error e
      | .ok ea =>
        let r := char_decode L self src ea.eras_pos ea.no_eras
        if r.count < 0 then .error .tooManyErrors
        else if self.k < 0 then .error .negativeSize
        else
          let output := (List.range self.k.toNat).map r.data
          convert_decode_result self output r.eras_pos r.count

/-! ## Chunks -/

/-- The input loop shared by `stringcodec_encodechunks` and
`stringcodec_decodechunks`: `rows` starts at -1, takes the length of the first
string, and every later string must have that length and pass the symbol
check. The result is the final `rows`. -/
def collect_inputs (self : Codec) : Int → List (List Nat) → Except RsError Int
  | rows, [] => .ok rows
  | rows, o :: rest =>
    let length : Int := o.length
    if rows ≠ -1 ∧ rows ≠ length then .error .unequalLength
    else
      let rows := if rows = -1 then length else rows
      match stringcodec_checksymbols self o with
      | .error e => .error e
      | .ok () => collect_inputs self rows rest

/-- The gather loop `for (j ...) buf[j] = inputs[j][i]`. -/
def gather_row (inputs : List (List Nat)) (i : Nat) : List Nat :=
  inputs.map (fun o => o.getD i 0)

/-- The scatter loop `for (j ...) outputs[j][i] = col[j]`, started at index
`j` of `col` for the first buffer of the list. -/
def scatter_row (col : Nat → Nat) (i : Nat) :
    Nat → List (List Nat) → List (List Nat)
  | _, [] => []
  | j, buf :: rest => buf.set i (col j) :: scatter_row col i (j + 1) rest

/-- One iteration of the row loop of `stringcodec_encodechunks`. -/
def encode_row (L : Librs) (self : Codec) (inputs : List (List Nat))
    (outputs : List (List Nat)) (i : Nat) : List (List Nat) :=
  let data_str := gather_row inputs i
  let parity_str := char_encode L self data_str
  scatter_row parity_str i 0 outputs

/-- The function `stringcodec_encodechunks`. The `nroots` fresh output strings
of `rows` bytes start out as zeros here (their content is unspecified in C);
the result tuple holds the input strings followed by the output strings. -/
def stringcodec_encodechunks (L : Librs) (self : Codec)
    (srcs : List (List Nat)) : Except RsError (List (List Nat)) :=
  if (srcs.length : Int) ≠ self.k then .error .chunkCount
  else if self.n < 0 then .error .negativeSize
  else
    match collect_inputs self (-1) srcs with
    | .error e => .error e
    | .ok rows =>
      if 0 < self.nroots ∧ rows < 0 then .error .negativeSize
      else
        let outputs := List.replicate self.nroots.toNat
          (List.replicate rows.toNat 0)
        .ok (srcs ++ (List.range rows.toNat).foldl
          (encode_row L self srcs) outputs)

/-- The state of the row loop of `stringcodec_decodechunks`: the output
strings and the flag array `corrected`. -/
structure ChunkState where
  outputs : List (List Nat)
  corrected : List Nat
  deriving DecidableEq

/-- The loop over `j < count` in `stringcodec_decodechunks`: an index outside
`[0, n)` raises, every other index gets its flag set. -/
def mark_corrected (self : Codec) (eras_pos : Nat → Int) :
    List Nat → List Nat → Except RsError (List Nat)
  | [], corrected => .ok corrected
  | j :: rest, corrected =>
    let index := eras_pos j - self.pad
    if index < 0 ∨ index ≥ self.n then .error .corruptedInput
    else mark_corrected self eras_pos rest (corrected.set index.toNat 1)

/-- One iteration of the row loop of `stringcodec_decodechunks`. The working
position array is reloaded from `const_eras_pos` before the decoder runs, so
the decoder always receives the array built by `create_erasure_array`. -/
def decode_row (L : Librs) (self : Codec) (inputs : List (List Nat))
    (const_eras : ErasureArray) (st : ChunkState) (i : Nat) :
    Except RsError ChunkState :=
  let codeword := gather_row inputs i
  let eras_pos := const_eras.eras_pos
  let r := char_decode L self codeword eras_pos const_eras.no_eras
  if r.count < 0 then .error .tooManyErrors
  else
    let outputs := scatter_row r.data i 0 st.outputs
    match mark_corrected self r.eras_pos (List.range r.count.toNat)
        st.corrected with
    | .error e => .error e
    | .ok corrected => .ok ⟨outputs, corrected⟩

/-- The row loop of `stringcodec_decodechunks`, which stops at the first row
that raises. -/
def decode_rows (L : Librs) (self : Codec) (inputs : List (List Nat))
    (const_eras : ErasureArray) : ChunkState → List Nat →
    Except RsError ChunkState
  | st, [] => .ok st
  | st, i :: rest =>
    match decode_row L self inputs const_eras st i with
    | .error e => .error e
    | .ok st => decode_rows L self inputs const_eras st rest

/-- The final loop of `stringcodec_decodechunks`: the indexes below `n` whose
flag is set, in increasing order. -/
def collect_corrections (self : Codec) (corrected : List Nat) : List Int :=
  ((List.range self.n.toNat).filter (fun i => corrected.getD i 0 ≠ 0)).map
    (fun (i : Nat) => (i : Int))

/-- The function `stringcodec_decodechunks`. The `k` fresh output strings
start out as zeros here (their content is unspecified in C). -/
def stringcodec_decodechunks (L : Librs) (self : Codec)
    (srcs : List (List Nat)) (erasures : Option (List Int)) :
    Except RsError (List (List Nat) × List Int) :=
  if (srcs.length : Int) ≠ self.n then .error .inputCount
  else if self.n < 0 ∨ self.k < 0 then .error .negativeSize
  else
    match collect_inputs self (-1) srcs with
    | .error e => .error e
    | .ok rows =>
      if 0 < self.k ∧ rows < 0 then .error .negativeSize
      else
        let outputs := List.replicate self.k.toNat
          (List.replicate rows.toNat 0)
        match create_erasure_array self erasures with
        | .error e => .error e
        | .ok const_eras =>
          let corrected := List.replicate self.n.toNat 0
          match decode_rows L self srcs const_eras ⟨outputs, corrected⟩
              (List.range rows.toNat) with
          | .error e => .error e
          | .ok st => .ok (st.outputs, collect_corrections self st.corrected)

/-! ## Parity update -/

/-- The row loop of `stringcodec_updatechunk`: `data_str` keeps its content
from row to row, only `data_str[dataindex]` is rewritten; the new parity
symbol is the old one XOR `parity_str[parityindex - k]`. The two strings have
equal length when the loop runs. -/
def update_rows (L : Librs) (self : Codec) (dataindex parityindex : Int) :
    List Nat → List Nat → List Nat → List Nat
  | data_str, delta :: datadelta, old :: oldparity =>
    let data_str := data_str.set dataindex.toNat delta
    let parity_str := char_encode L self data_str
    (old ^^^ parity_str (parityindex - self.k).toNat) ::
      update_rows L self dataindex parityindex data_str datadelta oldparity
  | _, _, _ => []

/-- The function `stringcodec_updatechunk`. -/
def stringcodec_updatechunk (L : Librs) (self : Codec) (dataindex : Int)
    (datadelta : List Nat) (parityindex : Int) (oldparity : List Nat) :
    Except RsError (List Nat) :=
  if datadelta.length ≠ oldparity.length then .error .updateLength
  else if parityindex < self.k then .error .parityIndexLow
  else if parityindex ≥ self.n then .error .parityIndexHigh
  else if dataindex < 0 then .error .dataIndexLow
  else if dataindex ≥ self.k then .error .dataIndexHigh
  else
    let data_str := List.replicate self.k.toNat 0
    .ok (update_rows L self dataindex parityindex data_str datadelta oldparity)

/-! ## Vocabulary of the statements -/

/-- Every element of the string is a byte. -/
def IsByteString (d : List Nat) : Prop := ∀ b ∈ d, b < 256

/-- Every symbol of the string is below `2 ^ symsize`. -/
def InRange (self : Codec) (d : List Nat) : Prop :=
  ∀ b ∈ d, (b : Int) < 2 ^ self.symsize.toNat

/-- A string codec: an object that `stringcodec_new` returned. -/
def IsStringCodec (L : Librs) (self : Codec) : Prop :=
  ∃ n k symsize gfpoly fcr prim variant,
    stringcodec_new L n k symsize gfpoly fcr prim variant = .ok self

/-- The facts that validation in `stringcodec_new` establishes about the
object it returns. -/
structure StringCodecInv (c : Codec) : Prop where
  integertype : c.integertype = false
  symsize_pos : 1 ≤ c.symsize
  symsize_le : c.symsize ≤ 8
  n_ge : 2 ≤ c.n
  n_le : c.n ≤ 2 ^ c.symsize.toNat - 1
  n_le_255 : c.n ≤ 255
  k_lt : c.k < c.n
  nroots_eq : c.n = c.k + c.nroots
  pad_eq : c.pad = 2 ^ c.symsize.toNat - c.n - 1
  mask_eq : c.mask = Int.land (shl 0xff c.symsize) 0xff ∨
    (c.mask = 0 ∧ c.symsize = 8)

/-- The row loop of `stringcodec_decodechunks` accepts the decoder report `r`:
the count is not negative and each of the first `count` positions de-pads
into `[0, n)`. -/
def RowAccepted (self : Codec) (r : DecodeOut) : Prop :=
  0 ≤ r.count ∧ ∀ j : Nat, (j : Int) < r.count →
    0 ≤ r.eras_pos j - self.pad ∧ r.eras_pos j - self.pad < self.n

/-- XOR of all symbols of a string. -/
def xorAll (d : List Nat) : Nat := d.foldr (fun a b => a ^^^ b) 0

/-- A small stand-in for librs on which the facade can be evaluated: every
parity symbol is the XOR of the data symbols, every decoder leaves the word
alone and reports the declared erasures as its corrections, the dual-basis
tables are the identity, and `init_rs_char` and `init_rs_int` always
succeed. -/
def toyLibrs : Librs where
  encode_rs_8 := fun data _ _ => xorAll data
  decode_rs_8 := fun data eras_pos no_eras _ =>
    ⟨no_eras, fun i => data.getD i 0, fun i => eras_pos.getD i 0⟩
  decode_rs_ccsds := fun data eras_pos no_eras _ =>
    ⟨no_eras, fun i => data.getD i 0, fun i => eras_pos.getD i 0⟩
  init_rs_char := fun symsize gfpoly fcr prim nroots pad =>
    some ⟨symsize, gfpoly, fcr, prim, nroots, pad⟩
  encode_rs_char := fun _ data _ => xorAll data
  decode_rs_char := fun _ data eras_pos no_eras =>
    ⟨no_eras, fun i => data.getD i 0, fun i => eras_pos.getD i 0⟩
  Taltab := fun x => x
  Tal1tab := fun x => x
  init_rs_int := fun symsize gfpoly fcr prim nroots pad =>
    some ⟨symsize, gfpoly, fcr, prim, nroots, pad⟩

/-- The codec `Codec(7, 3, symsize=3)` over `toyLibrs`: general coder,
`nroots = 4`, `pad = 0`, `mask = 0xf8`. -/
def toyCodec73 : Codec :=
  { coder := some .GENERAL_CHAR, rs := some ⟨3, 0xb, 1, 1, 4, 0⟩,
    integertype := false, n := 7, k := 3, symsize := 3, gfpoly := 0xb,
    fcr := 1, prim := 1, nroots := 4, pad := 0, mask := 0xf8,
    variant := "char" }

/-- The codec `Codec(20, 12)` over `toyLibrs`: general coder with the default
8-bit parameters, `nroots = 8`, `pad = 235`, `mask = 0`. -/
def toyCodec2012 : Codec :=
  { coder := some .GENERAL_CHAR, rs := some ⟨8, 0x187, 112, 11, 8, 235⟩,
    integertype := false, n := 20, k := 12, symsize := 8, gfpoly := 0x187,
    fcr := 112, prim := 11, nroots := 8, pad := 235, mask := 0,
    variant := "char" }

/-- The object that `stringcodec_new` holds after argument parsing, before
`codec_fill_params`. -/
def stringcodec_parsed (n k symsize gfpoly fcr prim : Int) : Codec :=
  { coder := none, rs := none, integertype := false, n := n, k := k,
    symsize := symsize, gfpoly := gfpoly, fcr := fcr, prim := prim,
    nroots := 0, pad := 0, mask := 0, variant := "" }

/-- The object that `intcodec_new` holds after argument parsing, before
`codec_fill_params`. -/
def intcodec_parsed (n k symsize gfpoly fcr prim : Int) : Codec :=
  { coder := none, rs := none, integertype := true, n := n, k := k,
    symsize := symsize, gfpoly := gfpoly, fcr := fcr, prim := prim,
    nroots := 0, pad := 0, mask := 0, variant := "int" }

/-- The test `using_defaults` of `stringcodec_new`: the parameter tuple of the
fixed coder. -/
def UsingDefaults (c : Codec) : Prop :=
  c.symsize = 8 ∧ c.gfpoly = 0x187 ∧ c.fcr = 112 ∧ c.prim = 11 ∧
    c.nroots = 32

/-- The string codec object of `Codec(20, 12)` after argument parsing, before
`codec_fill_params`. -/
def parsed2012 : Codec :=
  { coder := none, rs := none, integertype := false, n := 20, k := 12,
    symsize := 8, gfpoly := -1, fcr := -1, prim := -1, nroots := 0, pad := 0,
    mask := 0, variant := "" }

/-- The object `parsed2012` after `codec_fill_params`. -/
def filled2012 : Codec :=
  { parsed2012 with gfpoly := 0x187, fcr := 112, prim := 11, nroots := 8,
                    pad := 235 }

/-- The integer codec object of
`IntegerCodec(20, 12, symsize=17, gfpoly=0x20009, fcr=1, prim=1)` after
argument parsing, before `codec_fill_params`. -/
def parsedInt17 : Codec :=
  { coder := none, rs := none, integertype := true, n := 20, k := 12,
    symsize := 17, gfpoly := 0x20009, fcr := 1, prim := 1, nroots := 0,
    pad := 0, mask := 0, variant := "int" }

/-- The codec `IntegerCodec(20, 12, symsize=10)` over `toyLibrs`: `nroots = 8`,
`pad = 1003`, `mask = -1024`. -/
def toyIntCodec10 : Codec :=
  { coder := none, rs := some ⟨10, 0x409, 1, 1, 8, 1003⟩, integertype := true,
    n := 20, k := 12, symsize := 10, gfpoly := 0x409, fcr := 1, prim := 1,
    nroots := 8, pad := 1003, mask := -1024, variant := "int" }

/-! # Statements and proofs -/

/-! ## Machine integers -/

theorem wrap32_of_fits (x : Int) (hlo : -2147483648 ≤ x)
    (hhi : x < 2147483648) : wrap32 x = x := by
  unfold wrap32
  omega

theorem two_pow_toNat_le (s : Int) (m : Nat) (h : s ≤ m) :
    (2 : Int) ^ s.toNat ≤ 2 ^ m :=
  pow_le_pow_right₀ (by norm_num) (by omega)

theorem shl_eq_of_fits (a s : Int) (h0 : 0 ≤ s) (h31 : s ≤ 31)
    (hlo : -2147483648 ≤ a * 2 ^ s.toNat)
    (hhi : a * 2 ^ s.toNat < 2147483648) : shl a s = a * 2 ^ s.toNat := by
  have hs : s % 32 = s := by omega
  unfold shl
  rw [hs]
  exact wrap32_of_fits _ hlo hhi

theorem shl_one_eq (s : Int) (h0 : 0 ≤ s) (h30 : s ≤ 30) :
    shl 1 s = 2 ^ s.toNat := by
  have hpos : (0 : Int) < 2 ^ s.toNat := by positivity
  have hle := two_pow_toNat_le s 30 (by omega)
  norm_num at hle
  rw [shl_eq_of_fits 1 s h0 (by omega) (by omega) (by omega), one_mul]

/-! ## Accepted codecs -/

theorem codec_fill_params_ok {c0 c : Codec} (h : codec_fill_params c0 = .ok c) :
    c.n = c0.n ∧ c.k = c0.k ∧ c.symsize = c0.symsize ∧
      c.integertype = c0.integertype ∧ c.nroots = c0.n - c0.k ∧
      c.pad = shl 1 c0.symsize - c0.n - 1 := by
  unfold codec_fill_params at h
  split at h
  · split at h
    · cases h
    · cases h; simp
  · cases h; simp

theorem codec_check_params_ok {c : Codec} (h : codec_check_params c = .ok ())
    (hi : c.integertype = false) :
    1 ≤ c.symsize ∧ c.symsize ≤ 8 ∧ 2 ≤ c.n ∧ c.n ≤ shl 1 c.symsize - 1 ∧
      c.n ≤ 255 ∧ c.k < c.n ∧ c.n = c.k + c.nroots := by
  unfold codec_check_params at h
  simp only [hi] at h
  repeat' split at h
  all_goals try cases h
  simp at *
  omega

theorem stringCodecInv_of_isStringCodec {L : Librs} {c : Codec}
    (hc : IsStringCodec L c) : StringCodecInv c := by
  obtain ⟨n, k, s, g, f, p, v, h⟩ := hc
  unfold stringcodec_new at h
  simp only at h
  split at h
  · cases h
  · rename_i c1 hfill
    have h1 := codec_fill_params_ok hfill
    simp only at h1
    split at h
    · cases h
    · rename_i create coder hsel
      split at h
      · cases h
      · rename_i hchk
        have h2 := codec_check_params_ok hchk (by simp [h1])
        simp only at h2
        obtain ⟨e1, e2, e3, e4, e5, e6⟩ := h1
        obtain ⟨i1, i2, i3, i4, i5, i6, i7⟩ := h2
        have hpow : shl 1 c1.symsize = 2 ^ c1.symsize.toNat :=
          shl_one_eq _ (by omega) (by omega)
        split at h
        · split at h
          · cases h
          · cases h
            constructor <;> simp_all
        · rename_i hcreate
          have h8 : c1.symsize = 8 := by
            revert hsel
            repeat' split
            all_goals simp_all
          cases h
          constructor <;> simp_all

theorem toyCodec73_isStringCodec : IsStringCodec toyLibrs toyCodec73 :=
  ⟨7, 3, 3, -1, -1, -1, "char", by rfl⟩

theorem toyCodec2012_isStringCodec : IsStringCodec toyLibrs toyCodec2012 :=
  ⟨20, 12, 8, -1, -1, -1, "char", by rfl⟩

/-! ## Symbol range -/

set_option maxRecDepth 100000 in
theorem mask_bits_nat : ∀ s < 9, 0 < s → ∀ b < 256,
    (Nat.land b (Nat.land (255 * 2 ^ s) 255) ≠ 0 ↔ 2 ^ s ≤ b) := by
  decide

theorem land_mask_ne_zero_iff (s : Int) (b : Nat) (h1 : 1 ≤ s) (h8 : s ≤ 8)
    (hb : b < 256) :
    Int.land (b : Int) (Int.land (shl 0xff s) 0xff) ≠ 0 ↔
      (2 : Int) ^ s.toNat ≤ b := by
  obtain ⟨t, rfl⟩ : ∃ t : Nat, s = t := ⟨s.toNat, by omega⟩
  have ht : t < 9 := by omega
  have ht0 : 0 < t := by omega
  have key := mask_bits_nat t ht ht0 b hb
  have e1 : shl 0xff (t : Int) = ((255 * 2 ^ t : Nat) : Int) := by
    have hs : (t : Int).toNat = t := Int.toNat_ofNat t
    have hle := two_pow_toNat_le (t : Int) 8 (by omega)
    have hpos : (0 : Int) < 2 ^ (t : Int).toNat := by positivity
    rw [hs] at hle hpos
    norm_num at hle
    rw [shl_eq_of_fits 0xff (t : Int) (by omega) (by omega)
      (by rw [hs]; omega) (by rw [hs]; omega), hs]
    push_cast
    rfl
  rw [e1]
  have e2 : Int.land ((255 * 2 ^ t : Nat) : Int) 0xff
      = ((Nat.land (255 * 2 ^ t) 255 : Nat) : Int) := rfl
  rw [e2]
  have e3 : Int.land (b : Int) ((Nat.land (255 * 2 ^ t) 255 : Nat) : Int)
      = ((Nat.land b (Nat.land (255 * 2 ^ t) 255) : Nat) : Int) := rfl
  rw [e3]
  simp only [Int.toNat_ofNat]
  rw [show ((2 : Int) ^ t ≤ (b : Int)) ↔ 2 ^ t ≤ b by exact_mod_cast Iff.rfl]
  rw [← key]
  simp

theorem checksymbols_cases (self : Codec) (d : List Nat) :
    stringcodec_checksymbols self d = .ok () ∨
      stringcodec_checksymbols self d = .error .symbolRange := by
  unfold stringcodec_checksymbols
  split
  · split
    · right; rfl
    · left; rfl
  · left; rfl

theorem checksymbols_error_iff (self : Codec) (d : List Nat) :
    stringcodec_checksymbols self d = .error .symbolRange ↔
      self.mask ≠ 0 ∧ ∃ b ∈ d, Int.land (b : Int) self.mask ≠ 0 := by
  unfold stringcodec_checksymbols
  by_cases hm : self.mask = 0
  · simp [hm]
  · simp only [ne_eq, hm, not_false_eq_true, if_true, true_and]
    split
    · rename_i h
      simpa using h
    · rename_i h
      simp only [reduceCtorEq, false_iff]
      simpa using h

theorem checksymbols_general (self : Codec) (d : List Nat)
    (h1 : 1 ≤ self.symsize) (h8 : self.symsize ≤ 8)
    (hm : self.mask = Int.land (shl 0xff self.symsize) 0xff)
    (hd : IsByteString d) :
    stringcodec_checksymbols self d = .error .symbolRange ↔
      ∃ b ∈ d, (2 : Int) ^ self.symsize.toNat ≤ b := by
  rw [checksymbols_error_iff]
  constructor
  · rintro ⟨_, b, hb, hland⟩
    rw [hm] at hland
    exact ⟨b, hb, (land_mask_ne_zero_iff _ b h1 h8 (hd b hb)).1 hland⟩
  · rintro ⟨b, hb, hle⟩
    have hland := (land_mask_ne_zero_iff _ b h1 h8 (hd b hb)).2 hle
    rw [← hm] at hland
    refine ⟨?_, b, hb, hland⟩
    intro h0
    rw [h0] at hland
    apply hland
    show Int.land (Int.ofNat b) (Int.ofNat 0) = 0
    simp [Int.land]

theorem checksymbols_mask_zero (self : Codec) (d : List Nat)
    (hm : self.mask = 0) : stringcodec_checksymbols self d = .ok () := by
  simp [stringcodec_checksymbols, hm]

theorem checksymbols_ok_of_inRange {self : Codec} (hinv : StringCodecInv self)
    {d : List Nat} (hd : IsByteString d) (hr : InRange self d) :
    stringcodec_checksymbols self d = .ok () := by
  rcases hinv.mask_eq with hm | ⟨hm, _⟩
  · rcases checksymbols_cases self d with h | h
    · exact h
    · exfalso
      obtain ⟨b, hb, hle⟩ :=
        (checksymbols_general self d hinv.symsize_pos hinv.symsize_le hm hd).1 h
      have := hr b hb
      omega
  · exact checksymbols_mask_zero self d hm

/-- C5: with the mask of a general string codec, `(0xff << symsize) & 0xff`
for `1 ≤ symsize ≤ 8`, `stringcodec_checksymbols` rejects a byte string
exactly when it contains a byte `≥ 2 ^ symsize` (and accepts it otherwise);
with the mask 0 of the fixed 8-bit and CCSDS variants it accepts every byte
string. -/
theorem stringcodec_checksymbols_rejects_iff (self : Codec) (d : List Nat)
    (hd : IsByteString d) :
    (1 ≤ self.symsize → self.symsize ≤ 8 →
      self.mask = Int.land (shl 0xff self.symsize) 0xff →
        (stringcodec_checksymbols self d = .error .symbolRange ↔
          ∃ b ∈ d, (2 : Int) ^ self.symsize.toNat ≤ b) ∧
        (stringcodec_checksymbols self d = .ok () ↔
          ¬ ∃ b ∈ d, (2 : Int) ^ self.symsize.toNat ≤ b)) ∧
    (self.mask = 0 → stringcodec_checksymbols self d = .ok ()) := by
  refine ⟨fun h1 h8 hm => ?_, checksymbols_mask_zero self d⟩
  have key := checksymbols_general self d h1 h8 hm hd
  refine ⟨key, ?_⟩
  rw [← key]
  rcases checksymbols_cases self d with h | h <;> simp [h]

/-- C5, evaluated: the 3-bit codec rejects the string 1, 9 (9 ≥ 8) and accepts
1, 7; the 8-bit codec with mask 0 accepts 255. -/
theorem stringcodec_checksymbols_rejects_iff_witness :
    (stringcodec_checksymbols toyCodec73 [1, 9] = .error .symbolRange ↔
      ∃ b ∈ ([1, 9] : List Nat), (2 : Int) ^ toyCodec73.symsize.toNat ≤ b) ∧
    stringcodec_checksymbols toyCodec73 [1, 9] = .error .symbolRange ∧
    stringcodec_checksymbols toyCodec73 [1, 7] = .ok () ∧
    stringcodec_checksymbols toyCodec2012 [255] = .ok () :=
  ⟨((stringcodec_checksymbols_rejects_iff toyCodec73 [1, 9]
      (by intro b hb; simp at hb; omega)).1
      (by decide) (by decide) (by decide)).1,
    rfl, rfl,
    (stringcodec_checksymbols_rejects_iff toyCodec2012 [255]
      (by intro b hb; simp at hb; omega)).2 rfl⟩

/-! ## Erasure positions -/

theorem int_index_of_fits (x : Int) (hlo : -2147483648 ≤ x)
    (hhi : x < 2147483648) : wrap32 (PyInt_AsLong x) = x := by
  unfold PyInt_AsLong
  rw [if_pos (by omega)]
  exact wrap32_of_fits x hlo hhi

theorem fill_erasures_error_iff (self : Codec) (e : List Int) :
    fill_erasures self e = .error .erasureRange ↔
      ∃ x ∈ e, wrap32 (PyInt_AsLong x) < 0 ∨
        wrap32 (PyInt_AsLong x) ≥ self.n := by
  induction e with
  | nil => simp [fill_erasures]
  | cons x rest ih =>
    unfold fill_erasures
    by_cases hv : wrap32 (PyInt_AsLong x) < 0 ∨
        wrap32 (PyInt_AsLong x) ≥ self.n
    · simp only [hv, if_true, true_iff]
      exact ⟨x, List.mem_cons_self _ _, hv⟩
    · simp only [hv, if_false, List.mem_cons, exists_eq_or_imp, false_or]
      rw [← ih]
      split <;> simp_all

theorem fill_erasures_ok (self : Codec) (e : List Int)
    (h : ¬ ∃ x ∈ e, wrap32 (PyInt_AsLong x) < 0 ∨
      wrap32 (PyInt_AsLong x) ≥ self.n) :
    fill_erasures self e =
      .ok (e.map (fun x => self.pad + wrap32 (PyInt_AsLong x))) := by
  induction e with
  | nil => simp [fill_erasures]
  | cons x rest ih =>
    have hv : ¬ (wrap32 (PyInt_AsLong x) < 0 ∨
        wrap32 (PyInt_AsLong x) ≥ self.n) := fun hv =>
      h ⟨x, List.mem_cons_self _ _, hv⟩
    have hrest : ¬ ∃ w ∈ rest, wrap32 (PyInt_AsLong w) < 0 ∨
        wrap32 (PyInt_AsLong w) ≥ self.n := fun ⟨w, hw, hb⟩ =>
      h ⟨w, List.mem_cons_of_mem _ hw, hb⟩
    unfold fill_erasures
    simp only [hv, if_false, ih hrest, List.map_cons]

/-- The contract of `create_erasure_array` for indexes that a 32-bit `int`
holds: it fails (with the erasure range error) exactly when some supplied
index `v` has `v < 0` or `v ≥ n`; otherwise it reports `no_eras` = number of
supplied indexes and `eras_pos[i] = pad + erasures[i]` in the supplied order,
so that every position lies in `[pad, pad + n)`; with no erasure argument it
succeeds with `no_eras = 0`. -/
theorem create_erasure_array_int_range (self : Codec) (e : List Int)
    (hint : ∀ v ∈ e, -2147483648 ≤ v ∧ v < 2147483648) :
    (create_erasure_array self (some e) = .error .erasureRange ↔
      ∃ v ∈ e, v < 0 ∨ v ≥ self.n) ∧
    ((¬ ∃ v ∈ e, v < 0 ∨ v ≥ self.n) →
      ∃ ea, create_erasure_array self (some e) = .ok ea ∧
        ea.no_eras = e.length ∧
        ea.eras_pos = e.map (fun v => self.pad + v) ∧
        (∀ i : Nat, ea.eras_pos[i]? = (e[i]?).map (fun v => self.pad + v)) ∧
        ∀ p ∈ ea.eras_pos, self.pad ≤ p ∧ p < self.pad + self.n) ∧
    (∃ ea, create_erasure_array self none = .ok ea ∧ ea.no_eras = 0 ∧
      ea.eras_pos = []) := by
  have hfit : ∀ v ∈ e, wrap32 (PyInt_AsLong v) = v := fun v hv =>
    int_index_of_fits v (hint v hv).1 (hint v hv).2
  have hiff : (∃ x ∈ e, wrap32 (PyInt_AsLong x) < 0 ∨
      wrap32 (PyInt_AsLong x) ≥ self.n) ↔ ∃ v ∈ e, v < 0 ∨ v ≥ self.n := by
    constructor
    · rintro ⟨x, hx, hb⟩
      rw [hfit x hx] at hb
      exact ⟨x, hx, hb⟩
    · rintro ⟨x, hx, hb⟩
      exact ⟨x, hx, by rw [hfit x hx]; exact hb⟩
  have hmap : e.map (fun x => self.pad + wrap32 (PyInt_AsLong x)) =
      e.map (fun v => self.pad + v) :=
    List.map_congr_left (fun v hv => by rw [hfit v hv])
  refine ⟨?_, ?_, ⟨_, rfl, rfl, rfl⟩⟩
  · rw [← hiff, ← fill_erasures_error_iff]
    unfold create_erasure_array
    simp only
    split <;> simp_all
  · intro h
    refine ⟨⟨e.map (fun v => self.pad + v), e.length,
      4 * (if self.nroots < (e.length : Int) then (e.length : Int)
        else self.nroots)⟩, ?_, rfl, rfl, ?_, ?_⟩
    · unfold create_erasure_array
      simp only [fill_erasures_ok self e (fun hb => h (hiff.1 hb)), hmap]
    · intro i
      simp
    · intro p hp
      simp only [List.mem_map] at hp
      obtain ⟨v, hv, rfl⟩ := hp
      have : ¬ (v < 0 ∨ v ≥ self.n) := fun hb => h ⟨v, hv, hb⟩
      omega

/-- C4, evaluated at an index that does not fit a 32-bit `int`. On the codec
with `n = 20` and `pad = 235`, the erasure index `2 ^ 32 + 3` is not below
`n`, yet `create_erasure_array` accepts it: `v` keeps the low 32 bits, which
are 3, and position 238 is handed to the decoder, exactly as for the erasure
index 3. Every decode call therefore treats the two indexes alike, and with a
decoder that reports its erasures the caller reads the correction 3. -/
theorem create_erasure_array_accepts_wrapped_index :
    (4294967299 : Int) ≥ toyCodec2012.n ∧
    create_erasure_array toyCodec2012 (some [4294967299]) =
      .ok ⟨[238], 1, 32⟩ ∧
    create_erasure_array toyCodec2012 (some [3]) = .ok ⟨[238], 1, 32⟩ ∧
    (∀ (L : Librs) (src : List Nat),
      stringcodec_decode L toyCodec2012 src (some [4294967299]) =
        stringcodec_decode L toyCodec2012 src (some [3])) ∧
    stringcodec_decode toyLibrs toyCodec2012 (List.replicate 20 0)
      (some [4294967299]) = .ok (List.replicate 12 0, [3]) := by
  have h1 : create_erasure_array toyCodec2012 (some [4294967299]) =
      .ok ⟨[238], 1, 32⟩ := rfl
  have h2 : create_erasure_array toyCodec2012 (some [3]) =
      .ok ⟨[238], 1, 32⟩ := rfl
  refine ⟨by decide, h1, h2, ?_, rfl⟩
  intro L src
  unfold stringcodec_decode
  rw [h1, h2]

/-! ## Single codewords -/

theorem map_range_getD_append (d p : List Nat) :
    (List.range d.length).map (fun j => (d ++ p).getD j 0) = d := by
  apply List.ext_getElem
  · simp
  · intro i h1 h2
    simp only [List.getElem_map, List.getElem_range]
    rw [List.getD_eq_getElem?_getD, List.getElem?_append_left h2,
      List.getElem?_eq_getElem h2]
    rfl

theorem stringcodec_encode_eq {L : Librs} {self : Codec}
    (hinv : StringCodecInv self) {d : List Nat}
    (hlen : (d.length : Int) = self.k)
    (hchk : stringcodec_checksymbols self d = .ok ()) :
    stringcodec_encode L self d =
      .ok (d ++ (List.range self.nroots.toNat).map (char_encode L self d)) := by
  have hn := hinv.n_ge
  have hnk : self.n - self.k = self.nroots := by have := hinv.nroots_eq; omega
  unfold stringcodec_encode
  simp only [ne_eq, hlen, not_true_eq_false, if_false, hchk, hnk]
  rw [if_neg (by omega)]

theorem two_pow_symsize_le {self : Codec} (hinv : StringCodecInv self) :
    (2 : Int) ^ self.symsize.toNat ≤ 256 := by
  have h8 : self.symsize.toNat ≤ 8 := by have := hinv.symsize_le; omega
  calc (2 : Int) ^ self.symsize.toNat ≤ 2 ^ 8 :=
        pow_le_pow_right₀ (by norm_num) h8
    _ = 256 := by norm_num

/-- C1: for every string codec and every byte string `d`, `stringcodec_encode`
fails with the length error exactly when `|d| ≠ k`; when `|d| = k` and every
symbol is in range it returns a string of exactly `n` symbols whose first `k`
symbols are `d` and whose last `nroots = n - k` symbols are the parity that
the selected encoder computes for `d`. -/
theorem stringcodec_encode_contract (L : Librs) (self : Codec) (d : List Nat)
    (hc : IsStringCodec L self) :
    (stringcodec_encode L self d = .error .encodeLength ↔
      (d.length : Int) ≠ self.k) ∧
    ((d.length : Int) = self.k → IsByteString d → InRange self d →
      ∃ out, stringcodec_encode L self d = .ok out ∧
        (out.length : Int) = self.n ∧
        out.take self.k.toNat = d ∧
        out.drop self.k.toNat =
          (List.range self.nroots.toNat).map (char_encode L self d) ∧
        self.nroots = self.n - self.k ∧
        ((out.drop self.k.toNat).length : Int) = self.nroots) := by
  have hinv := stringCodecInv_of_isStringCodec hc
  have hn := hinv.n_ge
  have hnr := hinv.nroots_eq
  have hk := hinv.k_lt
  constructor
  · unfold stringcodec_encode
    by_cases hlen : (d.length : Int) = self.k
    · simp only [ne_eq, hlen, not_true_eq_false, if_false, iff_false]
      rcases checksymbols_cases self d with h | h
      · rw [h]
        simp only
        split <;> simp
      · rw [h]
        simp
    · simp [hlen]
  · intro hlen hd hr
    have hchk := checksymbols_ok_of_inRange hinv hd hr
    have hnk : self.n - self.k = self.nroots := by omega
    have hkn : self.k.toNat = d.length := by omega
    refine ⟨d ++ (List.range self.nroots.toNat).map (char_encode L self d),
      stringcodec_encode_eq hinv hlen hchk, ?_, ?_, ?_, by omega, ?_⟩
    · simp only [List.length_append, List.length_map, List.length_range]
      push_cast
      omega
    · rw [hkn]
      simp
    · rw [hkn]
      simp
    · rw [hkn]
      simp only [List.drop_left, List.length_map, List.length_range]
      omega

/-- C1, evaluated on the 3-bit codec `Codec(7, 3, symsize=3)`: the string
1, 2, 4 is encoded to itself followed by four parity symbols. -/
theorem stringcodec_encode_contract_witness :
    ((([1, 2, 4] : List Nat).length : Int) = toyCodec73.k) ∧
    IsByteString [1, 2, 4] ∧ InRange toyCodec73 [1, 2, 4] ∧
    ∃ out, stringcodec_encode toyLibrs toyCodec73 [1, 2, 4] = .ok out ∧
      (out.length : Int) = toyCodec73.n ∧
      out.take toyCodec73.k.toNat = [1, 2, 4] :=
  have h1 : (([1, 2, 4] : List Nat).length : Int) = toyCodec73.k := by decide
  have h2 : IsByteString [1, 2, 4] := by
    intro b hb; simp at hb; omega
  have h3 : InRange toyCodec73 [1, 2, 4] := by
    intro b hb; simp at hb; rcases hb with rfl | rfl | rfl <;> decide
  ⟨h1, h2, h3, by
    obtain ⟨out, e1, e2, e3, -⟩ :=
      (stringcodec_encode_contract toyLibrs toyCodec73 [1, 2, 4]
        toyCodec73_isStringCodec).2 h1 h2 h3
    exact ⟨out, e1, e2, e3⟩⟩

/-- C2: round trip at the facade. For a string codec and in-range `d` with
`|d| = k`, if the parity that the encoder produces for `d` is in range and the
decoder, run without erasures on the encoded word, returns count 0 and leaves
the word unchanged, then decoding the encoding of `d` without erasures returns
`d` with an empty corrections list. (An encoder of `Librs` answers the parity
buffer only; the data it is given stays as it is.) -/
theorem stringcodec_roundtrip (L : Librs) (self : Codec) (d : List Nat)
    (hc : IsStringCodec L self) (hlen : (d.length : Int) = self.k)
    (hd : IsByteString d) (hr : InRange self d)
    (hpar : ∀ j : Nat, (j : Int) < self.nroots →
      (char_encode L self d j : Int) < 2 ^ self.symsize.toNat)
    (hcount : (char_decode L self
      (d ++ (List.range self.nroots.toNat).map (char_encode L self d))
      [] 0).count = 0)
    (hword : ∀ j : Nat, (j : Int) < self.n →
      (char_decode L self
        (d ++ (List.range self.nroots.toNat).map (char_encode L self d))
        [] 0).data j =
      (d ++ (List.range self.nroots.toNat).map (char_encode L self d)).getD
        j 0) :
    ∃ cw, stringcodec_encode L self d = .ok cw ∧
      stringcodec_decode L self cw none = .ok (d, []) := by
  have hinv := stringCodecInv_of_isStringCodec hc
  have hnr := hinv.nroots_eq
  have hk := hinv.k_lt
  have h256 := two_pow_symsize_le hinv
  have hchk := checksymbols_ok_of_inRange hinv hd hr
  refine ⟨_, stringcodec_encode_eq hinv hlen hchk, ?_⟩
  generalize hcw :
    d ++ (List.range self.nroots.toNat).map (char_encode L self d) = cw
    at hcount hword
  have hcwlen : (cw.length : Int) = self.n := by
    rw [← hcw]
    simp only [List.length_append, List.length_map, List.length_range]
    push_cast
    omega
  have hcwr : InRange self cw := by
    intro b hb
    rw [← hcw, List.mem_append] at hb
    rcases hb with hb | hb
    · exact hr b hb
    · simp only [List.mem_map, List.mem_range] at hb
      obtain ⟨j, hj, rfl⟩ := hb
      exact hpar j (by omega)
  have hcwd : IsByteString cw := by
    intro b hb
    have := hcwr b hb
    omega
  have hchk2 := checksymbols_ok_of_inRange hinv hcwd hcwr
  have hkn : self.k.toNat = d.length := by omega
  have hout : (List.range self.k.toNat).map
      (char_decode L self cw [] 0).data = d := by
    rw [hkn]
    have : (List.range d.length).map (char_decode L self cw [] 0).data
        = (List.range d.length).map (fun j => cw.getD j 0) := by
      apply List.map_congr_left
      intro j hj
      rw [List.mem_range] at hj
      exact hword j (by omega)
    rw [this, ← hcw]
    exact map_range_getD_append d _
  unfold stringcodec_decode
  simp only [ne_eq, hcwlen, not_true_eq_false, if_false, hchk2,
    create_erasure_array, hcount, lt_self_iff_false, hout]
  rw [if_neg (by omega)]
  simp [convert_decode_result, convert_corrections]

/-- C2, evaluated on the 3-bit codec: 1, 2, 4 encodes to 1, 2, 4, 7, 7, 7, 7
and decodes back to 1, 2, 4 with no corrections. -/
theorem stringcodec_roundtrip_witness :
    stringcodec_encode toyLibrs toyCodec73 [1, 2, 4] = .ok [1, 2, 4, 7, 7, 7, 7] ∧
    ∃ cw, stringcodec_encode toyLibrs toyCodec73 [1, 2, 4] = .ok cw ∧
      stringcodec_decode toyLibrs toyCodec73 cw none = .ok ([1, 2, 4], []) :=
  ⟨rfl, stringcodec_roundtrip toyLibrs toyCodec73 [1, 2, 4]
    toyCodec73_isStringCodec (by decide)
    (by intro b hb; simp at hb; omega)
    (by intro b hb; simp at hb; rcases hb with rfl | rfl | rfl <;> decide)
    (by intro j _; show ((7 : Nat) : Int) < 2 ^ (3 : Nat); decide)
    rfl
    (by intro j _; rfl)⟩

/-! ## Parity update -/

theorem stringcodec_encode_ok_inv {L : Librs} {self : Codec} {d cw : List Nat}
    (h : stringcodec_encode L self d = .ok cw) :
    (d.length : Int) = self.k ∧
      cw = d ++ (List.range (self.n - self.k).toNat).map (char_encode L self d) := by
  unfold stringcodec_encode at h
  split at h
  · cases h
  · rename_i hlen
    split at h
    · cases h
    · split at h
      · cases h
      · cases h
        exact ⟨by simpa using hlen, rfl⟩

theorem codeword_getD_parity {L : Librs} {self : Codec} {d cw : List Nat}
    (h : stringcodec_encode L self d = .ok cw) (pi : Int)
    (hpik : self.k ≤ pi) (hpin : pi < self.n) :
    cw.getD pi.toNat 0 = char_encode L self d (pi - self.k).toNat := by
  obtain ⟨hlen, rfl⟩ := stringcodec_encode_ok_inv h
  have h1 : d.length ≤ pi.toNat := by omega
  have h2 : pi.toNat - d.length = (pi - self.k).toNat := by omega
  have h3 : (pi - self.k).toNat < (self.n - self.k).toNat := by omega
  rw [List.getD_eq_getElem?_getD, List.getElem?_append_right h1, h2,
    List.getElem?_map, List.getElem?_range h3]
  rfl

theorem update_rows_eq (L : Librs) (self : Codec) (di pi : Int)
    (datadelta : List Nat) :
    ∀ (data_str oldparity : List Nat),
      (∀ x, data_str.set di.toNat x =
        (List.replicate self.k.toNat 0).set di.toNat x) →
      update_rows L self di pi data_str datadelta oldparity =
        List.zipWith (fun delta old => old ^^^
          char_encode L self ((List.replicate self.k.toNat 0).set di.toNat delta)
            (pi - self.k).toNat) datadelta oldparity := by
  induction datadelta with
  | nil => intro data_str oldparity _; simp [update_rows]
  | cons delta rest ih =>
    intro data_str oldparity hinv
    cases oldparity with
    | nil => simp [update_rows]
    | cons old olds =>
      simp only [update_rows, List.zipWith_cons_cons]
      rw [ih (data_str.set di.toNat delta) olds
        (by intro x; rw [List.set_set]; exact hinv x), hinv delta]

theorem zipWith_xor_unit (a : List Nat) (i delta : Nat) :
    List.zipWith (fun x y => x ^^^ y) a ((List.replicate a.length 0).set i delta) =
      a.set i (a.getD i 0 ^^^ delta) := by
  apply List.ext_getElem
  · simp
  · intro j h1 h2
    simp only [List.getElem_zipWith, List.getElem_set, List.getElem_replicate]
    have hj : j < a.length := by simpa using h2
    by_cases hij : i = j
    · subst hij
      simp [List.getD_eq_getElem?_getD, List.getElem?_eq_getElem hj]
    · simp [hij]

/-- C6, evaluated: on the 3-bit codec `Codec(7, 3, symsize=3)` the call
`updatechunk(0, "\xff", 3, "\x00")` does not raise; it returns the byte 255,
the parity that the encoder computed from the data vector 255, 0, 0. The
single-codeword encoder rejects that same data vector with the symbol range
error. -/
theorem stringcodec_updatechunk_accepts_out_of_range :
    IsStringCodec toyLibrs toyCodec73 ∧ toyCodec73.symsize = 3 ∧
    stringcodec_updatechunk toyLibrs toyCodec73 0 [255] 3 [0] = .ok [255] ∧
    char_encode toyLibrs toyCodec73 [255, 0, 0] 0 = 255 ∧
    stringcodec_encode toyLibrs toyCodec73 [255, 0, 0] =
      .error .symbolRange :=
  ⟨⟨7, 3, 3, -1, -1, -1, "char", by rfl⟩, rfl, rfl, rfl, rfl⟩

/-- C7: updater equivalence. For a string codec whose encoder is XOR-linear on
data vectors of length `k`, indexes `0 ≤ di < k ≤ pi < n`, and `L` rows: if
`oldparity[r]` is symbol `pi` of the encoding of `olddata r`, and the new data
of row `r` (`olddata r` with symbol `di` XORed by `datadelta[r]`) has an
encoding, then `stringcodec_updatechunk` returns `L` symbols and symbol `r`
is symbol `pi` of the encoding of the new data of row `r`. -/
theorem stringcodec_updatechunk_equiv (L : Librs) (self : Codec)
    (di pi : Int) (olddata : Nat → List Nat) (datadelta oldparity : List Nat)
    (hlin : ∀ a b : List Nat, (a.length : Int) = self.k →
      (b.length : Int) = self.k → ∀ j,
        char_encode L self (List.zipWith (fun x y => x ^^^ y) a b) j =
          char_encode L self a j ^^^ char_encode L self b j)
    (hdi0 : 0 ≤ di) (hdik : di < self.k) (hpik : self.k ≤ pi)
    (hpin : pi < self.n) (hrows : datadelta.length = oldparity.length)
    (hold : ∀ r < datadelta.length, ∃ cw,
      stringcodec_encode L self (olddata r) = .ok cw ∧
        oldparity.getD r 0 = cw.getD pi.toNat 0)
    (hnew : ∀ r < datadelta.length, ∃ cw,
      stringcodec_encode L self ((olddata r).set di.toNat
        ((olddata r).getD di.toNat 0 ^^^ datadelta.getD r 0)) = .ok cw) :
    ∃ out, stringcodec_updatechunk L self di datadelta pi oldparity = .ok out ∧
      out.length = datadelta.length ∧
      ∀ r < datadelta.length, ∃ cw,
        stringcodec_encode L self ((olddata r).set di.toNat
          ((olddata r).getD di.toNat 0 ^^^ datadelta.getD r 0)) = .ok cw ∧
        out.getD r 0 = cw.getD pi.toNat 0 := by
  refine ⟨update_rows L self di pi (List.replicate self.k.toNat 0) datadelta
    oldparity, ?_, ?_, ?_⟩
  · unfold stringcodec_updatechunk
    rw [if_neg (by omega), if_neg (by omega), if_neg (by omega),
      if_neg (by omega), if_neg (by omega)]
  · rw [update_rows_eq L self di pi datadelta _ _ (fun _ => rfl)]
    simp [hrows]
  · intro r hr
    obtain ⟨cwold, hcwold, hpar⟩ := hold r hr
    obtain ⟨cwnew, hcwnew⟩ := hnew r hr
    refine ⟨cwnew, hcwnew, ?_⟩
    have hlen := (stringcodec_encode_ok_inv hcwold).1
    have hr' : r < oldparity.length := by omega
    rw [update_rows_eq L self di pi datadelta _ _ (fun _ => rfl),
      codeword_getD_parity hcwnew pi hpik hpin]
    rw [List.getD_eq_getElem?_getD, List.getElem?_zipWith,
      List.getElem?_eq_getElem hr, List.getElem?_eq_getElem hr']
    simp only [Option.map, Option.bind, Option.getD_some]
    have hk : self.k.toNat = (olddata r).length := by omega
    have hdelta : datadelta.getD r 0 = datadelta[r] := by
      rw [List.getD_eq_getElem?_getD, List.getElem?_eq_getElem hr]; rfl
    have hop : oldparity[r] = oldparity.getD r 0 := by
      rw [List.getD_eq_getElem?_getD, List.getElem?_eq_getElem hr']; rfl
    rw [hdelta, ← zipWith_xor_unit, hlin _ _ hlen (by simp; omega), hop, hpar,
      codeword_getD_parity hcwold pi hpik hpin, hk]

theorem xorAll_zipWith (a : List Nat) :
    ∀ b : List Nat, a.length = b.length →
      xorAll (List.zipWith (fun x y => x ^^^ y) a b) = xorAll a ^^^ xorAll b := by
  induction a with
  | nil => intro b hb; cases b <;> simp_all [xorAll]
  | cons x xs ih =>
    intro b hb
    cases b with
    | nil => simp at hb
    | cons y ys =>
      have hlen : xs.length = ys.length := by simpa using hb
      have := ih ys hlen
      simp only [xorAll, List.zipWith_cons_cons, List.foldr_cons] at this ⊢
      rw [this]
      simp only [Nat.xor_assoc]
      congr 1
      simp only [← Nat.xor_assoc]
      congr 1
      exact Nat.xor_comm _ _

/-- C7, evaluated on the 3-bit codec over `toyLibrs` (parity = XOR of the
data): one row with old data 1, 2, 4, delta 3 at data index 0, parity index 3
and old parity 7 gives the new parity 4, symbol 3 of the encoding of 2, 2, 4. -/
theorem stringcodec_updatechunk_equiv_witness :
    stringcodec_encode toyLibrs toyCodec73 [1, 2, 4] = .ok [1, 2, 4, 7, 7, 7, 7] ∧
    stringcodec_encode toyLibrs toyCodec73 [2, 2, 4] = .ok [2, 2, 4, 4, 4, 4, 4] ∧
    stringcodec_updatechunk toyLibrs toyCodec73 0 [3] 3 [7] = .ok [4] ∧
    ∃ out, stringcodec_updatechunk toyLibrs toyCodec73 0 [3] 3 [7] = .ok out ∧
      out.length = 1 ∧
      ∀ r < 1, ∃ cw,
        stringcodec_encode toyLibrs toyCodec73
          (([1, 2, 4] : List Nat).set 0
            (([1, 2, 4] : List Nat).getD 0 0 ^^^ ([3] : List Nat).getD r 0)) =
            .ok cw ∧
          out.getD r 0 = cw.getD 3 0 :=
  ⟨rfl, rfl, rfl,
    stringcodec_updatechunk_equiv toyLibrs toyCodec73 0 3 (fun _ => [1, 2, 4])
      [3] [7]
      (by
        intro a b ha hb j
        have hab : a.length = b.length := by omega
        exact xorAll_zipWith a b hab)
      (by decide) (by decide) (by decide) (by decide) rfl
      (by
        intro r hr
        have hr0 : r = 0 := by simpa using hr
        subst hr0
        exact ⟨_, rfl, rfl⟩)
      (by
        intro r hr
        have hr0 : r = 0 := by simpa using hr
        subst hr0
        exact ⟨_, rfl⟩)⟩

/-! ## Chunks -/

theorem collect_inputs_inv (self : Codec) (srcs : List (List Nat)) :
    ∀ (rows r : Int), collect_inputs self rows srcs = .ok r →
      (rows ≠ -1 → r = rows) ∧ (srcs = [] → r = rows) ∧
      (∀ c ∈ srcs, (c.length : Int) = r) ∧
      (∀ c ∈ srcs, stringcodec_checksymbols self c = .ok ()) := by
  induction srcs with
  | nil =>
    intro rows r h
    simp only [collect_inputs, Except.ok.injEq] at h
    simp [h]
  | cons o rest ih =>
    intro rows r h
    unfold collect_inputs at h
    simp only at h
    split at h
    · cases h
    · rename_i hrows
      split at h
      · cases h
      · rename_i hchk
        have hrows' : (if rows = -1 then (o.length : Int) else rows) = o.length := by
          split
          · rfl
          · rename_i hne
            by_contra hcon
            exact hrows ⟨hne, hcon⟩
        rw [hrows'] at h
        obtain ⟨h1, _, h3, h4⟩ := ih _ _ h
        have hr : r = o.length := h1 (by omega)
        refine ⟨?_, by simp, ?_, ?_⟩
        · intro hne
          by_contra hcon
          exact hrows ⟨hne, by omega⟩
        · intro c hc
          rcases List.mem_cons.1 hc with rfl | hc
          · exact hr.symm
          · exact h3 c hc
        · intro c hc
          rcases List.mem_cons.1 hc with rfl | hc
          · exact hchk
          · exact h4 c hc

theorem collect_inputs_ok (self : Codec) (rows : Nat) (srcs : List (List Nat))
    (hlen : ∀ c ∈ srcs, c.length = rows)
    (hchk : ∀ c ∈ srcs, stringcodec_checksymbols self c = .ok ()) :
    ∀ r0 : Int, (r0 = -1 ∨ r0 = rows) →
      collect_inputs self r0 srcs = .ok (if srcs = [] then r0 else rows) := by
  induction srcs with
  | nil => intro r0 _; simp [collect_inputs]
  | cons o rest ih =>
    intro r0 hr0
    have ho : o.length = rows := hlen o (List.mem_cons_self _ _)
    have hrest := ih (fun c hc => hlen c (List.mem_cons_of_mem _ hc))
      (fun c hc => hchk c (List.mem_cons_of_mem _ hc)) rows (Or.inr rfl)
    unfold collect_inputs
    simp only [ho, hchk o (List.mem_cons_self _ _)]
    rw [if_neg (by omega)]
    have : (if r0 = -1 then (rows : Int) else r0) = rows := by
      split <;> omega
    rw [this, hrest]
    simp only [reduceCtorEq, if_false]
    split <;> rfl

theorem scatter_row_getElem? (col : Nat → Nat) (i : Nat)
    (outs : List (List Nat)) :
    ∀ j0 j : Nat, (scatter_row col i j0 outs)[j]? =
      (outs[j]?).map (fun buf => buf.set i (col (j0 + j))) := by
  induction outs with
  | nil => intro j0 j; simp [scatter_row]
  | cons buf rest ih =>
    intro j0 j
    cases j with
    | zero => simp [scatter_row]
    | succ j =>
      simp only [scatter_row, List.getElem?_cons_succ, ih]
      have : j0 + 1 + j = j0 + (j + 1) := by omega
      rw [this]

theorem scatter_row_length (col : Nat → Nat) (i : Nat)
    (outs : List (List Nat)) :
    ∀ j0 : Nat, (scatter_row col i j0 outs).length = outs.length := by
  induction outs with
  | nil => intro j0; simp [scatter_row]
  | cons buf rest ih => intro j0; simp [scatter_row, ih]

theorem foldl_set_length (f : Nat → Nat) (rows : List Nat) :
    ∀ buf : List Nat,
      (rows.foldl (fun b i => b.set i (f i)) buf).length = buf.length := by
  induction rows with
  | nil => intro buf; rfl
  | cons i rest ih => intro buf; simp [ih]

theorem foldl_set_getD (f : Nat → Nat) (rows : List Nat) :
    ∀ (buf : List Nat) (r : Nat), r < buf.length →
      (rows.foldl (fun b i => b.set i (f i)) buf).getD r 0 =
        if r ∈ rows then f r else buf.getD r 0 := by
  induction rows with
  | nil => intro buf r _; simp
  | cons i rest ih =>
    intro buf r hr
    simp only [List.foldl_cons]
    rw [ih (buf.set i (f i)) r (by simpa using hr)]
    by_cases hmem : r ∈ rest
    · simp [hmem]
    · simp only [hmem, if_false, List.mem_cons, or_false]
      by_cases hri : r = i
      · subst hri
        simp [List.getD_eq_getElem?_getD, hr]
      · have hir : ¬ i = r := fun h => hri h.symm
        simp [List.getD_eq_getElem?_getD, List.getElem?_set, hri, hir]

theorem foldl_scatter_getElem? (P : Nat → Nat → Nat) (rows : List Nat) :
    ∀ (outs : List (List Nat)) (j : Nat),
      (rows.foldl (fun o i => scatter_row (P i) i 0 o) outs)[j]? =
        (outs[j]?).map (fun buf => rows.foldl (fun b i => b.set i (P i j)) buf) := by
  induction rows with
  | nil => intro outs j; simp
  | cons i rest ih =>
    intro outs j
    simp only [List.foldl_cons]
    rw [ih, scatter_row_getElem?]
    cases outs[j]? <;> simp

theorem foldl_set_replicate (f : Nat → Nat) (rows : Nat) :
    (List.range rows).foldl (fun b i => b.set i (f i)) (List.replicate rows 0) =
      (List.range rows).map f := by
  apply List.ext_getElem
  · simp [foldl_set_length]
  · intro r h1 h2
    have hr : r < rows := by simpa using h2
    have key := foldl_set_getD f (List.range rows) (List.replicate rows 0) r
      (by simpa using hr)
    rw [List.getD_eq_getElem?_getD, List.getElem?_eq_getElem h1] at key
    simp only [Option.getD_some, List.mem_range, hr, if_true] at key
    simp [key]

theorem foldl_scatter_replicate (P : Nat → Nat → Nat) (m rows : Nat) :
    (List.range rows).foldl (fun o i => scatter_row (P i) i 0 o)
        (List.replicate m (List.replicate rows 0)) =
      (List.range m).map (fun j => (List.range rows).map (fun r => P r j)) := by
  apply List.ext_getElem?
  intro j
  rw [foldl_scatter_getElem?]
  by_cases hj : j < m
  · simp [hj, List.getElem?_replicate, List.getElem?_range, foldl_set_replicate]
  · have hnone : (List.range m)[j]? = none :=
      List.getElem?_eq_none (by simpa using hj)
    simp [hj, List.getElem?_replicate, hnone]

theorem gather_row_length (srcs : List (List Nat)) (r : Nat) :
    (gather_row srcs r).length = srcs.length := by
  simp [gather_row]

theorem gather_row_getD (srcs : List (List Nat)) (r j : Nat) :
    (gather_row srcs r).getD j 0 = (srcs.getD j []).getD r 0 := by
  simp only [gather_row, List.getD_eq_getElem?_getD, List.getElem?_map]
  cases srcs[j]? <;> simp

theorem getD_mem_or_zero (c : List Nat) (r : Nat) : c.getD r 0 ∈ c ∨ c.getD r 0 = 0 := by
  rw [List.getD_eq_getElem?_getD]
  by_cases h : r < c.length
  · left
    rw [List.getElem?_eq_getElem h]
    exact List.getElem_mem h
  · right
    rw [List.getElem?_eq_none (by omega)]
    rfl

theorem gather_row_isByteString {srcs : List (List Nat)}
    (h : ∀ c ∈ srcs, IsByteString c) (r : Nat) :
    IsByteString (gather_row srcs r) := by
  intro b hb
  simp only [gather_row, List.mem_map] at hb
  obtain ⟨c, hc, rfl⟩ := hb
  rcases getD_mem_or_zero c r with hm | h0
  · exact h c hc _ hm
  · omega

theorem gather_row_inRange {self : Codec} {srcs : List (List Nat)}
    (h : ∀ c ∈ srcs, InRange self c) (r : Nat) :
    InRange self (gather_row srcs r) := by
  intro b hb
  simp only [gather_row, List.mem_map] at hb
  obtain ⟨c, hc, rfl⟩ := hb
  rcases getD_mem_or_zero c r with hm | h0
  · exact h c hc _ hm
  · rw [h0]
    positivity

theorem stringcodec_encodechunks_eq {L : Librs} {self : Codec}
    (hinv : StringCodecInv self) {chunks : List (List Nat)} {rows : Nat}
    (hk : 1 ≤ self.k) (hcount : (chunks.length : Int) = self.k)
    (hlen : ∀ c ∈ chunks, c.length = rows)
    (hchk : ∀ c ∈ chunks, stringcodec_checksymbols self c = .ok ()) :
    stringcodec_encodechunks L self chunks =
      .ok (chunks ++ (List.range self.nroots.toNat).map (fun j =>
        (List.range rows).map (fun r =>
          char_encode L self (gather_row chunks r) j))) := by
  have hn := hinv.n_ge
  have hne : chunks ≠ [] := by
    intro h
    rw [h] at hcount
    simp at hcount
    omega
  unfold stringcodec_encodechunks
  rw [if_neg (by omega), if_neg (by omega),
    collect_inputs_ok self rows chunks hlen hchk (-1) (Or.inl rfl)]
  simp only [hne, if_false]
  rw [if_neg (by omega)]
  simp only [Int.toNat_ofNat]
  have hstep : encode_row L self chunks =
      fun o i => scatter_row
        ((fun r => char_encode L self (gather_row chunks r)) i) i 0 o := rfl
  rw [hstep, foldl_scatter_replicate]

/-- C8: chunk equivalence for encoding. For a string codec with `k ≥ 1` and
`k` in-range chunks of equal length `rows`, `stringcodec_encodechunks` returns
`n` chunks of length `rows`, the first `k` of which are the input chunks, and
for every row `r < rows` and every `j < n` symbol `r` of output chunk `j` is
symbol `j` of the encoding of row `r` (the `r`-th symbols of the input
chunks). The call fails when the number of chunks is not `k` and when the
chunks have unequal lengths. -/
theorem stringcodec_encodechunks_equiv (L : Librs) (self : Codec)
    (chunks : List (List Nat)) (rows : Nat) (hc : IsStringCodec L self) :
    ((chunks.length : Int) ≠ self.k →
      stringcodec_encodechunks L self chunks = .error .chunkCount) ∧
    ((∃ a ∈ chunks, ∃ b ∈ chunks, a.length ≠ b.length) →
      ∃ e, stringcodec_encodechunks L self chunks = .error e) ∧
    (1 ≤ self.k → (chunks.length : Int) = self.k →
      (∀ c ∈ chunks, c.length = rows ∧ IsByteString c ∧ InRange self c) →
      ∃ out, stringcodec_encodechunks L self chunks = .ok out ∧
        (out.length : Int) = self.n ∧ (∀ c ∈ out, c.length = rows) ∧
        out.take self.k.toNat = chunks ∧
        ∀ r < rows, ∃ cw,
          stringcodec_encode L self (gather_row chunks r) = .ok cw ∧
          ∀ j : Nat, (j : Int) < self.n →
            (out.getD j []).getD r 0 = cw.getD j 0) := by
  have hinv := stringCodecInv_of_isStringCodec hc
  have hnr := hinv.nroots_eq
  have hkl := hinv.k_lt
  refine ⟨?_, ?_, ?_⟩
  · intro hne
    unfold stringcodec_encodechunks
    rw [if_pos hne]
  · rintro ⟨a, ha, b, hb, hab⟩
    cases hres : stringcodec_encodechunks L self chunks with
    | error e => exact ⟨e, rfl⟩
    | ok out =>
      exfalso
      unfold stringcodec_encodechunks at hres
      split at hres
      · cases hres
      · split at hres
        · cases hres
        · split at hres
          · cases hres
          · rename_i r hcol
            obtain ⟨-, -, h3, -⟩ := collect_inputs_inv self chunks _ _ hcol
            have h1 := h3 a ha
            have h2 := h3 b hb
            omega
  · intro hk hcount hall
    have hchk : ∀ c ∈ chunks, stringcodec_checksymbols self c = .ok () :=
      fun c hc => checksymbols_ok_of_inRange hinv (hall c hc).2.1 (hall c hc).2.2
    have hkn : self.k.toNat = chunks.length := by omega
    refine ⟨_, stringcodec_encodechunks_eq hinv hk hcount
      (fun c hc => (hall c hc).1) hchk, ?_, ?_, ?_, ?_⟩
    · simp only [List.length_append, List.length_map, List.length_range]
      push_cast
      omega
    · intro c hc
      rcases List.mem_append.1 hc with h | h
      · exact (hall c h).1
      · simp only [List.mem_map, List.mem_range] at h
        obtain ⟨j, -, rfl⟩ := h
        simp
    · rw [hkn]
      simp
    · intro r hr
      have hrowlen : ((gather_row chunks r).length : Int) = self.k := by
        rw [gather_row_length]; exact hcount
      have hrowchk := checksymbols_ok_of_inRange hinv
        (gather_row_isByteString (fun c hc => (hall c hc).2.1) r)
        (gather_row_inRange (fun c hc => (hall c hc).2.2) r)
      have henc := stringcodec_encode_eq (L := L) hinv hrowlen hrowchk
      refine ⟨_, henc, ?_⟩
      intro j hj
      by_cases hjk : j < chunks.length
      · rw [List.getD_append _ _ _ _ hjk, ← gather_row_getD,
          List.getD_append _ _ _ _ (by rw [gather_row_length]; exact hjk)]
      · have hjk' : chunks.length ≤ j := by omega
        have hj2 : j - chunks.length < self.nroots.toNat := by omega
        have hpar := codeword_getD_parity henc (j : Int) (by omega) hj
        simp only [Int.toNat_ofNat] at hpar
        rw [hpar]
        have hjm : ((j : Int) - self.k).toNat = j - chunks.length := by omega
        rw [hjm, List.getD_append_right _ _ _ _ hjk']
        simp only [List.getD_eq_getElem?_getD, List.getElem?_map,
          List.getElem?_range hj2, List.getElem?_range hr, Option.map_some',
          Option.getD_some]

/-- C8, evaluated on the 3-bit codec over `toyLibrs`: three chunks of two
symbols are extended by four parity chunks; row 0 is 1, 2, 4 and row 1 is
2, 3, 4. -/
theorem stringcodec_encodechunks_equiv_witness :
    stringcodec_encodechunks toyLibrs toyCodec73 [[1, 2], [2, 3], [4, 4]] =
      .ok [[1, 2], [2, 3], [4, 4], [7, 5], [7, 5], [7, 5], [7, 5]] ∧
    stringcodec_encode toyLibrs toyCodec73 [2, 3, 4] =
      .ok [2, 3, 4, 5, 5, 5, 5] ∧
    ∃ out, stringcodec_encodechunks toyLibrs toyCodec73
        [[1, 2], [2, 3], [4, 4]] = .ok out ∧
      (out.length : Int) = toyCodec73.n ∧ (∀ c ∈ out, c.length = 2) ∧
      out.take toyCodec73.k.toNat = [[1, 2], [2, 3], [4, 4]] ∧
      ∀ r < 2, ∃ cw,
        stringcodec_encode toyLibrs toyCodec73
          (gather_row [[1, 2], [2, 3], [4, 4]] r) = .ok cw ∧
        ∀ j : Nat, (j : Int) < toyCodec73.n →
          (out.getD j []).getD r 0 = cw.getD j 0 :=
  ⟨rfl, rfl,
    (stringcodec_encodechunks_equiv toyLibrs toyCodec73
      [[1, 2], [2, 3], [4, 4]] 2 toyCodec73_isStringCodec).2.2
      (by decide) (by decide)
      (by
        intro c hc
        simp only [List.mem_cons, List.mem_singleton, List.not_mem_nil,
          or_false] at hc
        refine ⟨?_, ?_, ?_⟩
        · rcases hc with rfl | rfl | rfl <;> rfl
        · intro b hb
          rcases hc with rfl | rfl | rfl <;> simp at hb <;> omega
        · intro b hb
          have hb8 : b < 8 := by
            rcases hc with rfl | rfl | rfl <;> simp at hb <;> omega
          show (b : Int) < 2 ^ (3 : Nat)
          norm_num
          omega)⟩

theorem mark_corrected_ok (self : Codec) (pos : Nat → Int) (js : List Nat) :
    ∀ corrected : List Nat,
      (∀ j ∈ js, 0 ≤ pos j - self.pad ∧ pos j - self.pad < self.n) →
      mark_corrected self pos js corrected =
        .ok (js.foldl (fun c j => c.set (pos j - self.pad).toNat 1) corrected) := by
  induction js with
  | nil => intro corrected _; rfl
  | cons j rest ih =>
    intro corrected h
    have hj := h j (List.mem_cons_self _ _)
    unfold mark_corrected
    simp only
    rw [if_neg (by omega), ih _ (fun x hx => h x (List.mem_cons_of_mem _ hx))]
    rfl

theorem mark_corrected_error (self : Codec) (pos : Nat → Int) (js : List Nat) :
    ∀ corrected : List Nat,
      (∃ j ∈ js, ¬ (0 ≤ pos j - self.pad ∧ pos j - self.pad < self.n)) →
      mark_corrected self pos js corrected = .error .corruptedInput := by
  induction js with
  | nil => intro corrected h; simp at h
  | cons j rest ih =>
    intro corrected h
    unfold mark_corrected
    simp only
    by_cases hj : pos j - self.pad < 0 ∨ pos j - self.pad ≥ self.n
    · rw [if_pos hj]
    · rw [if_neg hj]
      apply ih
      obtain ⟨x, hx, hbad⟩ := h
      rcases List.mem_cons.1 hx with rfl | hx
      · exfalso; apply hbad; omega
      · exact ⟨x, hx, hbad⟩

theorem mem_range_toNat {count : Int} (h : 0 ≤ count) (j : Nat) :
    j ∈ List.range count.toNat ↔ (j : Int) < count := by
  rw [List.mem_range]
  omega

theorem decode_row_ok {L : Librs} {self : Codec} {srcs : List (List Nat)}
    {ea : ErasureArray} (st : ChunkState) {i : Nat}
    (h : RowAccepted self
      (char_decode L self (gather_row srcs i) ea.eras_pos ea.no_eras)) :
    decode_row L self srcs ea st i = .ok
      ⟨scatter_row (char_decode L self (gather_row srcs i) ea.eras_pos
          ea.no_eras).data i 0 st.outputs,
        (List.range (char_decode L self (gather_row srcs i) ea.eras_pos
          ea.no_eras).count.toNat).foldl
          (fun c j => c.set ((char_decode L self (gather_row srcs i)
            ea.eras_pos ea.no_eras).eras_pos j - self.pad).toNat 1)
          st.corrected⟩ := by
  unfold decode_row
  simp only
  rw [if_neg (by have := h.1; omega), mark_corrected_ok]
  intro j hj
  exact h.2 j ((mem_range_toNat h.1 j).1 hj)

theorem decode_row_error {L : Librs} {self : Codec} {srcs : List (List Nat)}
    {ea : ErasureArray} (st : ChunkState) {i : Nat}
    (h : ¬ RowAccepted self
      (char_decode L self (gather_row srcs i) ea.eras_pos ea.no_eras)) :
    ∃ e, decode_row L self srcs ea st i = .error e ∧
      e.isUncorrectable = true := by
  unfold decode_row
  simp only
  by_cases hc : (char_decode L self (gather_row srcs i) ea.eras_pos
      ea.no_eras).count < 0
  · rw [if_pos hc]
    exact ⟨_, rfl, rfl⟩
  · rw [if_neg hc, mark_corrected_error]
    · exact ⟨_, rfl, rfl⟩
    · by_contra hno
      apply h
      refine ⟨by omega, fun j hj => ?_⟩
      by_contra hbad
      exact hno ⟨j, (mem_range_toNat (by omega) j).2 hj, hbad⟩

theorem decode_rows_ok {L : Librs} {self : Codec} {srcs : List (List Nat)}
    {ea : ErasureArray} (rows : List Nat) :
    ∀ st : ChunkState,
      (∀ i ∈ rows, RowAccepted self
        (char_decode L self (gather_row srcs i) ea.eras_pos ea.no_eras)) →
      decode_rows L self srcs ea st rows = .ok
        ⟨rows.foldl (fun o i => scatter_row
            (char_decode L self (gather_row srcs i) ea.eras_pos
              ea.no_eras).data i 0 o) st.outputs,
          rows.foldl (fun c i =>
            (List.range (char_decode L self (gather_row srcs i) ea.eras_pos
              ea.no_eras).count.toNat).foldl
              (fun c j => c.set ((char_decode L self (gather_row srcs i)
                ea.eras_pos ea.no_eras).eras_pos j - self.pad).toNat 1) c)
            st.corrected⟩ := by
  induction rows with
  | nil => intro st _; rfl
  | cons i rest ih =>
    intro st h
    unfold decode_rows
    rw [decode_row_ok st (h i (List.mem_cons_self _ _))]
    simp only
    rw [ih _ (fun x hx => h x (List.mem_cons_of_mem _ hx))]
    rfl

theorem decode_rows_error {L : Librs} {self : Codec} {srcs : List (List Nat)}
    {ea : ErasureArray} (rows : List Nat) :
    ∀ st : ChunkState,
      (∃ i ∈ rows, ¬ RowAccepted self
        (char_decode L self (gather_row srcs i) ea.eras_pos ea.no_eras)) →
      ∃ e, decode_rows L self srcs ea st rows = .error e ∧
        e.isUncorrectable = true := by
  induction rows with
  | nil => intro st h; simp at h
  | cons i rest ih =>
    intro st h
    unfold decode_rows
    by_cases hi : RowAccepted self
        (char_decode L self (gather_row srcs i) ea.eras_pos ea.no_eras)
    · rw [decode_row_ok st hi]
      simp only
      apply ih
      obtain ⟨x, hx, hbad⟩ := h
      rcases List.mem_cons.1 hx with rfl | hx
      · exact absurd hi hbad
      · exact ⟨x, hx, hbad⟩
    · obtain ⟨e, he, hu⟩ := @decode_row_error L self srcs ea st i hi
      rw [he]
      exact ⟨e, rfl, hu⟩

theorem foldl_flag_length (idx : Nat → Nat) (js : List Nat) :
    ∀ c : List Nat, (js.foldl (fun c j => c.set (idx j) 1) c).length = c.length := by
  induction js with
  | nil => intro c; rfl
  | cons j rest ih => intro c; simp [ih]

theorem foldl_flag_getD (idx : Nat → Nat) (js : List Nat) :
    ∀ (c : List Nat) (x : Nat),
      (js.foldl (fun c j => c.set (idx j) 1) c).getD x 0 ≠ 0 ↔
        c.getD x 0 ≠ 0 ∨ (x < c.length ∧ ∃ j ∈ js, idx j = x) := by
  induction js with
  | nil => intro c x; simp
  | cons j rest ih =>
    intro c x
    simp only [List.foldl_cons]
    rw [ih]
    simp only [List.length_set, List.mem_cons, exists_eq_or_imp]
    by_cases hx : idx j = x
    · subst hx
      by_cases hlt : idx j < c.length
      · simp [List.getD_eq_getElem?_getD, hlt]
      · have h0 : c.getD (idx j) 0 = 0 := by
          rw [List.getD_eq_getElem?_getD, List.getElem?_eq_none (by omega)]; rfl
        have h1 : (c.set (idx j) 1).getD (idx j) 0 = 0 := by
          rw [List.getD_eq_getElem?_getD,
            List.getElem?_eq_none (by simp; omega)]; rfl
        rw [h1, h0]
        simp [hlt]
    · have : (c.set (idx j) 1).getD x 0 = c.getD x 0 := by
        simp [List.getD_eq_getElem?_getD, List.getElem?_set, hx]
      rw [this]
      simp [hx]

theorem foldl_rows_flag_length (cnt : Nat → Nat) (idx : Nat → Nat → Nat)
    (rows : List Nat) :
    ∀ c : List Nat,
      (rows.foldl (fun c i =>
        (List.range (cnt i)).foldl (fun c j => c.set (idx i j) 1) c) c).length =
        c.length := by
  induction rows with
  | nil => intro c; rfl
  | cons i rest ih => intro c; simp [ih, foldl_flag_length]

theorem foldl_rows_flag_getD (cnt : Nat → Nat) (idx : Nat → Nat → Nat)
    (rows : List Nat) :
    ∀ (c : List Nat) (x : Nat),
      (rows.foldl (fun c i =>
        (List.range (cnt i)).foldl (fun c j => c.set (idx i j) 1) c) c).getD x 0
          ≠ 0 ↔
        c.getD x 0 ≠ 0 ∨
          (x < c.length ∧ ∃ i ∈ rows, ∃ j < cnt i, idx i j = x) := by
  induction rows with
  | nil => intro c x; simp
  | cons i rest ih =>
    intro c x
    simp only [List.foldl_cons]
    rw [ih, foldl_flag_getD, foldl_flag_length]
    simp only [List.mem_range, List.mem_cons, exists_eq_or_imp, and_or_left,
      or_assoc]

theorem convert_corrections_ok (self : Codec) (pos : Nat → Int) (js : List Nat)
    (h : ∀ j ∈ js, 0 ≤ pos j - self.pad) :
    convert_corrections self pos js = .ok (js.map (fun j => pos j - self.pad)) := by
  induction js with
  | nil => rfl
  | cons j rest ih =>
    have hj := h j (List.mem_cons_self _ _)
    unfold convert_corrections
    simp only
    rw [if_neg (by omega), ih (fun x hx => h x (List.mem_cons_of_mem _ hx))]
    rfl

theorem convert_corrections_error (self : Codec) (pos : Nat → Int)
    (js : List Nat) (h : ∃ j ∈ js, pos j - self.pad < 0) :
    convert_corrections self pos js = .error .corruptedInput := by
  induction js with
  | nil => simp at h
  | cons j rest ih =>
    unfold convert_corrections
    simp only
    by_cases hj : pos j - self.pad < 0
    · rw [if_pos hj]
    · rw [if_neg hj, ih]
      obtain ⟨x, hx, hbad⟩ := h
      rcases List.mem_cons.1 hx with rfl | hx
      · exact absurd hbad hj
      · exact ⟨x, hx, hbad⟩

theorem stringcodec_decode_eq {L : Librs} {self : Codec} {src : List Nat}
    {erasures : Option (List Int)} {ea : ErasureArray}
    (hlen : (src.length : Int) = self.n)
    (hchk : stringcodec_checksymbols self src = .ok ())
    (hea : create_erasure_array self erasures = .ok ea) (hk : 0 ≤ self.k)
    (hcount : 0 ≤ (char_decode L self src ea.eras_pos ea.no_eras).count)
    (hidx : ∀ j : Nat,
      (j : Int) < (char_decode L self src ea.eras_pos ea.no_eras).count →
      0 ≤ (char_decode L self src ea.eras_pos ea.no_eras).eras_pos j - self.pad) :
    stringcodec_decode L self src erasures = .ok
      ((List.range self.k.toNat).map
          (char_decode L self src ea.eras_pos ea.no_eras).data,
        (List.range (char_decode L self src ea.eras_pos
          ea.no_eras).count.toNat).map (fun j =>
            (char_decode L self src ea.eras_pos ea.no_eras).eras_pos j -
              self.pad)) := by
  unfold stringcodec_decode
  simp only [ne_eq, hlen, not_true_eq_false, if_false, hchk, hea]
  rw [if_neg (by omega), if_neg (by omega)]
  unfold convert_decode_result
  rw [if_neg (by omega), convert_corrections_ok]
  intro j hj
  exact hidx j ((mem_range_toNat hcount j).1 hj)

theorem stringcodec_decode_ok_inv {L : Librs} {self : Codec} {src : List Nat}
    {erasures : Option (List Int)} {res : List Nat × List Int}
    (h : stringcodec_decode L self src erasures = .ok res) :
    ∃ ea, create_erasure_array self erasures = .ok ea ∧ 0 ≤ self.k ∧
      0 ≤ (char_decode L self src ea.eras_pos ea.no_eras).count ∧
      (∀ j : Nat,
        (j : Int) < (char_decode L self src ea.eras_pos ea.no_eras).count →
        0 ≤ (char_decode L self src ea.eras_pos ea.no_eras).eras_pos j -
          self.pad) ∧
      res.1 = (List.range self.k.toNat).map
        (char_decode L self src ea.eras_pos ea.no_eras).data := by
  unfold stringcodec_decode at h
  split at h
  · cases h
  · split at h
    · cases h
    · split at h
      · cases h
      · rename_i ea hea
        simp only at h
        split at h
        · cases h
        · rename_i hcnt
          split at h
          · cases h
          · rename_i hk
            refine ⟨ea, hea, by omega, by omega, ?_, ?_⟩
            · intro j hj
              by_contra hneg
              unfold convert_decode_result at h
              rw [if_neg hcnt, convert_corrections_error] at h
              · cases h
              · exact ⟨j, (mem_range_toNat (by omega) j).2 hj, by omega⟩
            · unfold convert_decode_result at h
              split at h
              · cases h
              · split at h
                · cases h
                · cases h
                  rfl

theorem stringcodec_decodechunks_ok_inv {L : Librs} {self : Codec}
    {chunks : List (List Nat)} {erasures : Option (List Int)}
    {out : List (List Nat) × List Int}
    (h : stringcodec_decodechunks L self chunks erasures = .ok out) :
    ∃ (ea : ErasureArray) (r : Int),
      create_erasure_array self erasures = .ok ea ∧ 0 ≤ self.k ∧
      (chunks.length : Int) = self.n ∧
      collect_inputs self (-1) chunks = .ok r ∧
      (∀ i < r.toNat, RowAccepted self
        (char_decode L self (gather_row chunks i) ea.eras_pos ea.no_eras)) ∧
      out.1 = (List.range self.k.toNat).map (fun j =>
        (List.range r.toNat).map (fun i =>
          (char_decode L self (gather_row chunks i) ea.eras_pos
            ea.no_eras).data j)) ∧
      out.2 = collect_corrections self
        ((List.range r.toNat).foldl (fun c i =>
          (List.range (char_decode L self (gather_row chunks i) ea.eras_pos
            ea.no_eras).count.toNat).foldl
            (fun c j => c.set ((char_decode L self (gather_row chunks i)
              ea.eras_pos ea.no_eras).eras_pos j - self.pad).toNat 1) c)
          (List.replicate self.n.toNat 0)) := by
  unfold stringcodec_decodechunks at h
  split at h
  · cases h
  · rename_i hcount
    split at h
    · cases h
    · rename_i hnk
      split at h
      · cases h
      · rename_i r hcol
        split at h
        · cases h
        · split at h
          · cases h
          · rename_i ea hea
            simp only at h
            by_cases hacc : ∀ i ∈ List.range r.toNat, RowAccepted self
                (char_decode L self (gather_row chunks i) ea.eras_pos
                  ea.no_eras)
            · rw [decode_rows_ok _ _ hacc] at h
              simp only [Except.ok.injEq] at h
              refine ⟨ea, r, hea, by omega, by simpa using hcount, hcol,
                fun i hi => hacc i (List.mem_range.2 hi), ?_, ?_⟩
              · rw [← h]
                simp only
                exact foldl_scatter_replicate (fun i =>
                  (char_decode L self (gather_row chunks i) ea.eras_pos
                    ea.no_eras).data) _ _
              · rw [← h]
            · exfalso
              have hbad : ∃ i ∈ List.range r.toNat, ¬ RowAccepted self
                  (char_decode L self (gather_row chunks i) ea.eras_pos
                    ea.no_eras) := by
                by_contra hno
                apply hacc
                intro i hi
                by_contra hni
                exact hno ⟨i, hi, hni⟩
              obtain ⟨e, he, -⟩ := @decode_rows_error L self chunks ea
                (List.range r.toNat)
                ⟨List.replicate self.k.toNat (List.replicate r.toNat 0),
                  List.replicate self.n.toNat 0⟩ hbad
              rw [he] at h
              cases h

theorem stringcodec_decodechunks_eq {L : Librs} {self : Codec}
    {chunks : List (List Nat)} {rows : Nat} {erasures : Option (List Int)}
    {ea : ErasureArray} (hn : 0 ≤ self.n)
    (hcount : (chunks.length : Int) = self.n) (hne : chunks ≠ [])
    (hlen : ∀ c ∈ chunks, c.length = rows)
    (hchk : ∀ c ∈ chunks, stringcodec_checksymbols self c = .ok ())
    (hk : 0 ≤ self.k) (hea : create_erasure_array self erasures = .ok ea)
    (hacc : ∀ i < rows, RowAccepted self
      (char_decode L self (gather_row chunks i) ea.eras_pos ea.no_eras)) :
    ∃ out, stringcodec_decodechunks L self chunks erasures = .ok out := by
  unfold stringcodec_decodechunks
  rw [if_neg (by omega), if_neg (by omega),
    collect_inputs_ok self rows chunks hlen hchk (-1) (Or.inl rfl)]
  simp only [hne, if_false]
  rw [if_neg (by omega)]
  simp only [hea, Int.toNat_ofNat]
  rw [decode_rows_ok _ _ (fun i hi => hacc i (List.mem_range.1 hi))]
  exact ⟨_, rfl⟩

/-- C9: chunk equivalence for decoding, with the checks that precede the row
loop made explicit. For a string codec, `n` in-range chunks of equal length
`rows` and an erasure list, with a decoder that reports positions in
`[0, NN)`, `NN = 2 ^ symsize - 1`:
`stringcodec_decodechunks` succeeds iff `k ≥ 0`, the erasure list is accepted
by `create_erasure_array`, and single-codeword decode with that erasure list
succeeds on every row; when `rows ≥ 1` it succeeds iff single-codeword decode
succeeds on every row. On success there are `k` output chunks of length
`rows` and symbol `r` of output chunk `j` is symbol `j` of the data that
single-codeword decode returns for row `r`. If single-codeword decode fails
on some row, the call fails. -/
theorem stringcodec_decodechunks_equiv (L : Librs) (self : Codec)
    (chunks : List (List Nat)) (rows : Nat) (erasures : Option (List Int))
    (hc : IsStringCodec L self) (hcount : (chunks.length : Int) = self.n)
    (hall : ∀ c ∈ chunks, c.length = rows ∧ IsByteString c ∧ InRange self c)
    (hpos : ∀ ea, create_erasure_array self erasures = .ok ea →
      ∀ r < rows, ∀ j : Nat,
        (j : Int) < (char_decode L self (gather_row chunks r) ea.eras_pos
          ea.no_eras).count →
        0 ≤ (char_decode L self (gather_row chunks r) ea.eras_pos
          ea.no_eras).eras_pos j ∧
        (char_decode L self (gather_row chunks r) ea.eras_pos
          ea.no_eras).eras_pos j < 2 ^ self.symsize.toNat - 1) :
    ((∃ out, stringcodec_decodechunks L self chunks erasures = .ok out) ↔
      (0 ≤ self.k ∧ (∃ ea, create_erasure_array self erasures = .ok ea) ∧
        ∀ r < rows, ∃ res,
          stringcodec_decode L self (gather_row chunks r) erasures = .ok res)) ∧
    (1 ≤ rows →
      ((∃ out, stringcodec_decodechunks L self chunks erasures = .ok out) ↔
        ∀ r < rows, ∃ res,
          stringcodec_decode L self (gather_row chunks r) erasures = .ok res)) ∧
    (∀ out, stringcodec_decodechunks L self chunks erasures = .ok out →
      (out.1.length : Int) = self.k ∧ (∀ c ∈ out.1, c.length = rows) ∧
      ∀ r < rows, ∃ res,
        stringcodec_decode L self (gather_row chunks r) erasures = .ok res ∧
        ∀ j : Nat, (j : Int) < self.k →
          (out.1.getD j []).getD r 0 = res.1.getD j 0) ∧
    ((∃ r < rows, ∃ e,
        stringcodec_decode L self (gather_row chunks r) erasures = .error e) →
      ∃ e, stringcodec_decodechunks L self chunks erasures = .error e) := by
  have hinv := stringCodecInv_of_isStringCodec hc
  have hn := hinv.n_ge
  have hpad := hinv.pad_eq
  have hne : chunks ≠ [] := by
    intro h
    rw [h] at hcount
    simp at hcount
    omega
  have hlen : ∀ c ∈ chunks, c.length = rows := fun c hc => (hall c hc).1
  have hchk : ∀ c ∈ chunks, stringcodec_checksymbols self c = .ok () :=
    fun c hc => checksymbols_ok_of_inRange hinv (hall c hc).2.1 (hall c hc).2.2
  have hrowlen : ∀ r, ((gather_row chunks r).length : Int) = self.n := by
    intro r; rw [gather_row_length]; exact hcount
  have hrowchk : ∀ r, stringcodec_checksymbols self (gather_row chunks r) =
      .ok () := fun r => checksymbols_ok_of_inRange hinv
    (gather_row_isByteString (fun c hc => (hall c hc).2.1) r)
    (gather_row_inRange (fun c hc => (hall c hc).2.2) r)
  have hcol : collect_inputs self (-1) chunks = .ok (rows : Int) := by
    rw [collect_inputs_ok self rows chunks hlen hchk (-1) (Or.inl rfl)]
    simp [hne]
  -- what a successful call returns
  have part3 : ∀ out, stringcodec_decodechunks L self chunks erasures = .ok out →
      (out.1.length : Int) = self.k ∧ (∀ c ∈ out.1, c.length = rows) ∧
      ∀ r < rows, ∃ res,
        stringcodec_decode L self (gather_row chunks r) erasures = .ok res ∧
        ∀ j : Nat, (j : Int) < self.k →
          (out.1.getD j []).getD r 0 = res.1.getD j 0 := by
    intro out hout
    obtain ⟨ea, r0, hea, hk, -, hcol0, hacc, hout1, -⟩ :=
      stringcodec_decodechunks_ok_inv hout
    rw [hcol] at hcol0
    have hr0 : r0 = rows := by injection hcol0 with h; exact h.symm
    subst hr0
    simp only [Int.toNat_ofNat] at hacc hout1
    refine ⟨?_, ?_, ?_⟩
    · rw [hout1]
      simp only [List.length_map, List.length_range]
      omega
    · intro c hc
      rw [hout1] at hc
      simp only [List.mem_map, List.mem_range] at hc
      obtain ⟨j, -, rfl⟩ := hc
      simp
    · intro r hr
      have hacc_r := hacc r hr
      refine ⟨_, stringcodec_decode_eq (hrowlen r) (hrowchk r) hea hk hacc_r.1
        (fun j hj => (hacc_r.2 j hj).1), ?_⟩
      intro j hj
      have hjk : j < self.k.toNat := by omega
      rw [hout1]
      simp only [List.getD_eq_getElem?_getD, List.getElem?_map,
        List.getElem?_range hjk, List.getElem?_range hr, Option.map_some',
        Option.getD_some]
  -- success of every row gives success of the call
  have back : 0 ≤ self.k → (∃ ea, create_erasure_array self erasures = .ok ea) →
      (∀ r < rows, ∃ res,
        stringcodec_decode L self (gather_row chunks r) erasures = .ok res) →
      ∃ out, stringcodec_decodechunks L self chunks erasures = .ok out := by
    rintro hk ⟨ea, hea⟩ hrows
    refine stringcodec_decodechunks_eq (by omega) hcount hne hlen hchk hk hea ?_
    intro i hi
    obtain ⟨res, hres⟩ := hrows i hi
    obtain ⟨ea1, hea1, -, hcnt, hidx, -⟩ := stringcodec_decode_ok_inv hres
    rw [hea] at hea1
    have heq : ea = ea1 := by injection hea1
    subst heq
    refine ⟨hcnt, fun j hj => ⟨hidx j hj, ?_⟩⟩
    have := (hpos ea hea i hi j hj).2
    omega
  have part1 : (∃ out, stringcodec_decodechunks L self chunks erasures = .ok out) ↔
      (0 ≤ self.k ∧ (∃ ea, create_erasure_array self erasures = .ok ea) ∧
        ∀ r < rows, ∃ res,
          stringcodec_decode L self (gather_row chunks r) erasures = .ok res) := by
    constructor
    · rintro ⟨out, hout⟩
      obtain ⟨ea, -, hea, hk, -⟩ := stringcodec_decodechunks_ok_inv hout
      refine ⟨hk, ⟨ea, hea⟩, fun r hr => ?_⟩
      obtain ⟨res, hres, -⟩ := (part3 out hout).2.2 r hr
      exact ⟨res, hres⟩
    · rintro ⟨hk, hea, hrows⟩
      exact back hk hea hrows
  refine ⟨part1, ?_, part3, ?_⟩
  · intro hrows1
    constructor
    · intro h
      exact (part1.1 h).2.2
    · intro hrows
      obtain ⟨res, hres⟩ := hrows 0 (by omega)
      obtain ⟨ea, hea, hk, -⟩ := stringcodec_decode_ok_inv hres
      exact back hk ⟨ea, hea⟩ hrows
  · rintro ⟨r, hr, e, he⟩
    cases hres : stringcodec_decodechunks L self chunks erasures with
    | error e2 => exact ⟨e2, rfl⟩
    | ok out =>
      exfalso
      obtain ⟨res, hok, -⟩ := (part3 out hres).2.2 r hr
      rw [he] at hok
      cases hok

/-- C9 without the checks that precede the row loop does not hold for empty
chunks. On the 3-bit codec
(`n = 7`) with seven empty chunks and the erasure list 7, every row (there is
none) decodes, but `stringcodec_decodechunks` raises the erasure range
error. -/
theorem stringcodec_decodechunks_no_rows_counterexample :
    IsStringCodec toyLibrs toyCodec73 ∧
    ((List.replicate 7 ([] : List Nat)).length : Int) = toyCodec73.n ∧
    (∀ c ∈ List.replicate 7 ([] : List Nat),
      c.length = 0 ∧ IsByteString c ∧ InRange toyCodec73 c) ∧
    stringcodec_decodechunks toyLibrs toyCodec73 (List.replicate 7 [])
      (some [7]) = .error .erasureRange ∧
    ¬ ((∃ out, stringcodec_decodechunks toyLibrs toyCodec73
          (List.replicate 7 []) (some [7]) = .ok out) ↔
        ∀ r < 0, ∃ res, stringcodec_decode toyLibrs toyCodec73
          (gather_row (List.replicate 7 []) r) (some [7]) = .ok res) := by
  refine ⟨toyCodec73_isStringCodec, rfl, ?_, rfl, ?_⟩
  · intro c hc
    have hnil : c = [] := List.eq_of_mem_replicate hc
    subst hnil
    exact ⟨rfl, fun b hb => by simp at hb, fun b hb => by simp at hb⟩
  · intro hiff
    obtain ⟨out, hout⟩ := hiff.2 (fun r hr => absurd hr (Nat.not_lt_zero r))
    have herr : stringcodec_decodechunks toyLibrs toyCodec73
        (List.replicate 7 []) (some [7]) = .error .erasureRange := rfl
    rw [herr] at hout
    cases hout

/-- C9, evaluated on the 3-bit codec over `toyLibrs`, whose
decoder reports the declared erasures: seven chunks of two symbols with the
erasures 5 and 2 decode to the first three chunks. -/
theorem stringcodec_decodechunks_equiv_witness :
    stringcodec_decodechunks toyLibrs toyCodec73
      [[1, 2], [2, 3], [4, 4], [7, 5], [7, 5], [7, 5], [7, 5]] (some [5, 2]) =
      .ok ([[1, 2], [2, 3], [4, 4]], [2, 5]) ∧
    ((∃ out, stringcodec_decodechunks toyLibrs toyCodec73
        [[1, 2], [2, 3], [4, 4], [7, 5], [7, 5], [7, 5], [7, 5]]
        (some [5, 2]) = .ok out) ↔
      ∀ r < 2, ∃ res, stringcodec_decode toyLibrs toyCodec73
        (gather_row [[1, 2], [2, 3], [4, 4], [7, 5], [7, 5], [7, 5], [7, 5]] r)
        (some [5, 2]) = .ok res) :=
  ⟨rfl,
    (stringcodec_decodechunks_equiv toyLibrs toyCodec73
      [[1, 2], [2, 3], [4, 4], [7, 5], [7, 5], [7, 5], [7, 5]] 2 (some [5, 2])
      toyCodec73_isStringCodec (by decide)
      (by
        intro c hc
        simp only [List.mem_cons, List.mem_singleton, List.not_mem_nil,
          or_false] at hc
        have hb8 : ∀ b ∈ c, b < 8 := by
          intro b hb
          rcases hc with rfl | rfl | rfl | rfl | rfl | rfl | rfl <;>
            simp at hb <;> omega
        refine ⟨?_, ?_, ?_⟩
        · rcases hc with rfl | rfl | rfl | rfl | rfl | rfl | rfl <;> rfl
        · intro b hb
          have := hb8 b hb
          omega
        · intro b hb
          have := hb8 b hb
          show (b : Int) < 2 ^ (3 : Nat)
          norm_num
          omega)
      (by
        intro ea hea r hr j hj
        have h2 : create_erasure_array toyCodec73 (some [5, 2]) =
            .ok ⟨[5, 2], 2, 16⟩ := rfl
        rw [h2] at hea
        have heq : (⟨[5, 2], 2, 16⟩ : ErasureArray) = ea := by injection hea
        subst heq
        have hj2 : (j : Int) < 2 := hj
        have hj' : j < 2 := by omega
        show (0 : Int) ≤ ([5, 2] : List Int).getD j 0 ∧
          ([5, 2] : List Int).getD j 0 < 2 ^ (3 : Nat) - 1
        interval_cases j <;> decide)).2.1 (by decide)⟩

theorem pairwise_collect_corrections (self : Codec) (flags : List Nat) :
    (collect_corrections self flags).Pairwise (fun a b => a < b) := by
  unfold collect_corrections
  apply List.Pairwise.map (R := fun a b : Nat => a < b)
  · intro a b hab
    exact_mod_cast hab
  · exact List.Pairwise.filter _ (List.pairwise_lt_range _)

theorem mem_collect_corrections (self : Codec) (flags : List Nat) (i : Int) :
    i ∈ collect_corrections self flags ↔
      ∃ x : Nat, x < self.n.toNat ∧ flags.getD x 0 ≠ 0 ∧ (x : Int) = i := by
  unfold collect_corrections
  simp only [List.mem_map, List.mem_filter, List.mem_range, ne_eq,
    decide_eq_true_eq, and_assoc]

/-- C10: whenever `stringcodec_decodechunks` succeeds, its corrections list is
strictly ascending, every entry lies in `[0, n)`, and an index `i` occurs in
it iff for some row the decoder reported position `pad + i` among its first
`count` positions. -/
theorem stringcodec_decodechunks_corrections (L : Librs) (self : Codec)
    (chunks : List (List Nat)) (erasures : Option (List Int))
    (out : List (List Nat)) (corr : List Int)
    (h : stringcodec_decodechunks L self chunks erasures = .ok (out, corr)) :
    corr.Pairwise (fun a b => a < b) ∧ (∀ x ∈ corr, 0 ≤ x ∧ x < self.n) ∧
    ∃ (ea : ErasureArray) (rows : Nat),
      create_erasure_array self erasures = .ok ea ∧
      (∀ c ∈ chunks, c.length = rows) ∧
      ∀ i : Int, i ∈ corr ↔ ∃ r < rows, ∃ j : Nat,
        (j : Int) < (char_decode L self (gather_row chunks r) ea.eras_pos
          ea.no_eras).count ∧
        (char_decode L self (gather_row chunks r) ea.eras_pos
          ea.no_eras).eras_pos j = self.pad + i := by
  obtain ⟨ea, r0, hea, -, -, hcol, hacc, -, hcorr⟩ :=
    stringcodec_decodechunks_ok_inv h
  simp only at hcorr
  refine ⟨?_, ?_, ea, r0.toNat, hea, ?_, ?_⟩
  · rw [hcorr]
    exact pairwise_collect_corrections _ _
  · intro x hx
    rw [hcorr, mem_collect_corrections] at hx
    obtain ⟨y, hy, -, rfl⟩ := hx
    omega
  · intro c hc
    have := (collect_inputs_inv self chunks _ _ hcol).2.2.1 c hc
    omega
  · intro i
    rw [hcorr, mem_collect_corrections]
    constructor
    · rintro ⟨x, hx, hflag, rfl⟩
      rw [foldl_rows_flag_getD (fun r => (char_decode L self
        (gather_row chunks r) ea.eras_pos ea.no_eras).count.toNat)
        (fun r j => ((char_decode L self (gather_row chunks r) ea.eras_pos
          ea.no_eras).eras_pos j - self.pad).toNat)] at hflag
      rcases hflag with h0 | ⟨-, r, hr, j, hj, hidx⟩
      · exfalso
        apply h0
        rw [List.getD_eq_getElem?_getD, List.getElem?_replicate]
        split <;> rfl
      · have hr' : r < r0.toNat := List.mem_range.1 hr
        have hacc_r := hacc r hr'
        have hjc : (j : Int) < (char_decode L self (gather_row chunks r)
            ea.eras_pos ea.no_eras).count := by omega
        have := hacc_r.2 j hjc
        exact ⟨r, hr', j, hjc, by omega⟩
    · rintro ⟨r, hr, j, hj, hpos⟩
      have hacc_r := hacc r hr
      have hb := hacc_r.2 j hj
      refine ⟨i.toNat, by omega, ?_, by omega⟩
      rw [foldl_rows_flag_getD (fun r => (char_decode L self
        (gather_row chunks r) ea.eras_pos ea.no_eras).count.toNat)
        (fun r j => ((char_decode L self (gather_row chunks r) ea.eras_pos
          ea.no_eras).eras_pos j - self.pad).toNat)]
      right
      refine ⟨by simp; omega, r, List.mem_range.2 hr, j, by omega, ?_⟩
      omega

/-- C10, evaluated on the 3-bit codec over `toyLibrs`: with the erasures 5
and 2 declared, the corrections list is 2, 5. -/
theorem stringcodec_decodechunks_corrections_witness :
    stringcodec_decodechunks toyLibrs toyCodec73
      [[1, 2], [2, 3], [4, 4], [7, 5], [7, 5], [7, 5], [7, 5]] (some [5, 2]) =
      .ok ([[1, 2], [2, 3], [4, 4]], [2, 5]) ∧
    ([2, 5] : List Int).Pairwise (fun a b => a < b) ∧
    ∀ x ∈ ([2, 5] : List Int), 0 ≤ x ∧ x < toyCodec73.n :=
  have h := stringcodec_decodechunks_corrections toyLibrs toyCodec73
    [[1, 2], [2, 3], [4, 4], [7, 5], [7, 5], [7, 5], [7, 5]] (some [5, 2])
    [[1, 2], [2, 3], [4, 4]] [2, 5] rfl
  ⟨rfl, h.1, h.2.1⟩

/-! ## Construction parameters -/

theorem codec_check_params_string_iff (c : Codec) (hi : c.integertype = false) :
    codec_check_params c = .ok () ↔
      1 ≤ c.symsize ∧ c.symsize ≤ 8 ∧ 2 ≤ c.n ∧
        c.n ≤ 2 ^ c.symsize.toNat - 1 ∧ c.k < c.n ∧ c.n = c.k + c.nroots := by
  constructor
  · intro h
    have := codec_check_params_ok h hi
    rw [shl_one_eq c.symsize (by omega) (by omega)] at this
    tauto
  · rintro ⟨h1, h2, h3, h4, h5, h6⟩
    have h256 : (2 : Int) ^ c.symsize.toNat ≤ 256 := by
      have h8 : c.symsize.toNat ≤ 8 := by omega
      calc (2 : Int) ^ c.symsize.toNat ≤ 2 ^ 8 :=
            pow_le_pow_right₀ (by norm_num) h8
        _ = 256 := by norm_num
    unfold codec_check_params
    simp only [hi, shl_one_eq c.symsize (by omega) (by omega)]
    rw [if_neg (by omega), if_neg (by simp), if_neg (by simp; omega),
      if_neg (by omega), if_neg (by omega), if_neg (by simp; omega),
      if_neg (by omega), if_neg (by simp; omega)]

/-- C11: for a string codec object that `codec_fill_params` has filled (so
that `nroots = n - k`), `codec_check_params` accepts iff `1 ≤ symsize ≤ 8`,
`2 ≤ n ≤ 2 ^ symsize - 1` and `k < n`; every accepted object has `n ≤ 255`
and `symsize ≥ 2`. -/
theorem codec_check_params_string_accepts_iff (c0 c : Codec)
    (hi : c0.integertype = false) (hfill : codec_fill_params c0 = .ok c) :
    (codec_check_params c = .ok () ↔
      1 ≤ c.symsize ∧ c.symsize ≤ 8 ∧ 2 ≤ c.n ∧
        c.n ≤ 2 ^ c.symsize.toNat - 1 ∧ c.k < c.n) ∧
    (codec_check_params c = .ok () → c.n ≤ 255 ∧ 2 ≤ c.symsize) ∧
    c.nroots = c.n - c.k := by
  obtain ⟨e1, e2, e3, e4, e5, -⟩ := codec_fill_params_ok hfill
  have hci : c.integertype = false := by rw [e4, hi]
  have hnr : c.nroots = c.n - c.k := by rw [e5, e1, e2]
  have key := codec_check_params_string_iff c hci
  refine ⟨?_, ?_, hnr⟩
  · rw [key]
    constructor
    · rintro ⟨h1, h2, h3, h4, h5, -⟩
      exact ⟨h1, h2, h3, h4, h5⟩
    · rintro ⟨h1, h2, h3, h4, h5⟩
      exact ⟨h1, h2, h3, h4, h5, by omega⟩
  · intro h
    obtain ⟨h1, h2, h3, h4, -, -⟩ := key.1 h
    have h256 : (2 : Int) ^ c.symsize.toNat ≤ 256 := by
      have h8 : c.symsize.toNat ≤ 8 := by omega
      calc (2 : Int) ^ c.symsize.toNat ≤ 2 ^ 8 :=
            pow_le_pow_right₀ (by norm_num) h8
        _ = 256 := by norm_num
    refine ⟨by omega, ?_⟩
    by_contra hlt
    have hs1 : c.symsize = 1 := by omega
    rw [hs1] at h4
    norm_num at h4
    omega

/-- C11, evaluated on `Codec(20, 12)`: the filled object is accepted. -/
theorem codec_check_params_string_accepts_iff_witness :
    codec_fill_params parsed2012 = .ok filled2012 ∧
    codec_check_params filled2012 = .ok () ∧
    (codec_check_params filled2012 = .ok () ↔
      1 ≤ filled2012.symsize ∧ filled2012.symsize ≤ 8 ∧ 2 ≤ filled2012.n ∧
        filled2012.n ≤ 2 ^ filled2012.symsize.toNat - 1 ∧
        filled2012.k < filled2012.n) :=
  ⟨rfl, rfl,
    (codec_check_params_string_accepts_iff parsed2012 filled2012 rfl rfl).1⟩

/-- C15: the pad invariant. For an object with `symsize ≤ 16` that passes
`codec_fill_params` and then `codec_check_params`: `pad ≥ 0`,
`pad + n = 2 ^ symsize - 1` (that is `pad + k + nroots = 2 ^ symsize - 1`),
and every padded index `pad + v` with `0 ≤ v < n` lies in
`[pad, 2 ^ symsize - 1)`. -/
theorem codec_pad_invariant (c0 c : Codec)
    (hfill : codec_fill_params c0 = .ok c)
    (hchk : codec_check_params c = .ok ()) (_h16 : c.symsize ≤ 16) :
    0 ≤ c.pad ∧ c.pad + c.n = 2 ^ c.symsize.toNat - 1 ∧
      c.pad + c.k + c.nroots = 2 ^ c.symsize.toNat - 1 ∧
      ∀ v : Int, 0 ≤ v → v < c.n →
        c.pad ≤ c.pad + v ∧ c.pad + v < 2 ^ c.symsize.toNat - 1 := by
  obtain ⟨e1, e2, e3, -, e5, e6⟩ := codec_fill_params_ok hfill
  have hs1 : 1 ≤ c.symsize := by
    unfold codec_check_params at hchk
    split at hchk
    · cases hchk
    · omega
  have hshl := shl_one_eq c.symsize (by omega) (by omega)
  have hpad : c.pad = 2 ^ c.symsize.toNat - c.n - 1 := by
    rw [e6, ← e3, hshl, e1]
  have hn : c.n ≤ 2 ^ c.symsize.toNat - 1 ∧ c.n = c.k + c.nroots := by
    unfold codec_check_params at hchk
    rw [hshl] at hchk
    repeat' split at hchk
    all_goals try cases hchk
    omega
  refine ⟨by omega, by omega, by omega, fun v h0 hv => by omega⟩

/-- C15, evaluated on `Codec(20, 12)`: `pad = 235` and `235 + 20 = 255`. -/
theorem codec_pad_invariant_witness :
    filled2012.pad = 235 ∧ 0 ≤ filled2012.pad ∧
    filled2012.pad + filled2012.n = 2 ^ filled2012.symsize.toNat - 1 :=
  have h := codec_pad_invariant parsed2012 filled2012 rfl rfl (by decide)
  ⟨rfl, h.1, h.2.1⟩

/-! ## Variant selection -/

theorem stringcodec_new_ok_inv {L : Librs} {n k s g f p : Int} {v : String}
    {c : Codec} (h : stringcodec_new L n k s g f p v = .ok c) :
    ∃ c1, codec_fill_params (stringcodec_parsed n k s g f p) = .ok c1 ∧
      c.n = c1.n ∧ c.k = c1.k ∧ c.symsize = c1.symsize ∧
      c.gfpoly = c1.gfpoly ∧ c.fcr = c1.fcr ∧ c.prim = c1.prim ∧
      c.nroots = c1.nroots ∧ c.pad = c1.pad ∧ c.variant = v ∧
      c.integertype = false ∧
      ((v = "char" ∧ UsingDefaults c ∧ c.coder = some .CHAR ∧ c.rs = none ∧
          c.mask = 0) ∨
        (v = "char" ∧ ¬ UsingDefaults c ∧ c.coder = some .GENERAL_CHAR ∧
          c.rs ≠ none ∧
          c.rs = L.init_rs_char c.symsize c.gfpoly c.fcr c.prim c.nroots c.pad ∧
          c.mask = Int.land (shl 0xff c.symsize) 0xff) ∨
        (v = "ccsds" ∧ UsingDefaults c ∧ c.coder = some .CCSDS ∧ c.rs = none ∧
          c.mask = 0)) := by
  unfold stringcodec_new at h
  simp only at h
  split at h
  · cases h
  · rename_i c1 hfill
    have hi := (codec_fill_params_ok hfill).2.2.2.1
    refine ⟨c1, hfill, ?_⟩
    split at h
    · cases h
    · rename_i create coder hsel
      split at h
      · cases h
      · split at h
        · split at h
          · cases h
          · rename_i hcreate rs hrs
            cases h
            simp only [true_and]
            refine ⟨hi, ?_⟩
            revert hsel
            unfold UsingDefaults
            repeat' split
            all_goals simp_all
        · rename_i hcreate
          cases h
          simp only [true_and]
          refine ⟨hi, ?_⟩
          revert hsel
          unfold UsingDefaults
          repeat' split
          all_goals simp_all

/-- C13: variant selection in `stringcodec_new`, on the parameters after
default fill (the parameter fields of the returned object are those of the
filled object). With variant char the fixed 8-bit coder is selected, with
`rs = NULL` and `mask = 0`, iff `(symsize, gfpoly, fcr, prim, nroots)` is
`(8, 0x187, 112, 11, 32)`, and the general coder with its own control block
otherwise; with variant ccsds construction fails unless that tuple holds;
every other variant string makes construction fail. -/
theorem stringcodec_new_variant_selection (L : Librs)
    (n k s g f p : Int) :
    (∀ c, stringcodec_new L n k s g f p "char" = .ok c →
      (c.coder = some .CHAR ↔ UsingDefaults c) ∧
      (UsingDefaults c → c.coder = some .CHAR ∧ c.rs = none ∧ c.mask = 0) ∧
      (¬ UsingDefaults c → c.coder = some .GENERAL_CHAR ∧ c.rs ≠ none ∧
        c.rs = L.init_rs_char c.symsize c.gfpoly c.fcr c.prim c.nroots c.pad)) ∧
    (∀ c, stringcodec_new L n k s g f p "ccsds" = .ok c →
      UsingDefaults c ∧ c.coder = some .CCSDS) ∧
    (∀ c1, codec_fill_params (stringcodec_parsed n k s g f p) = .ok c1 →
      ¬ UsingDefaults c1 →
      stringcodec_new L n k s g f p "ccsds" = .error .ccsdsParams) ∧
    (∀ v, v ≠ "char" → v ≠ "ccsds" →
      ∃ e, stringcodec_new L n k s g f p v = .error e) ∧
    (∀ v c, stringcodec_new L n k s g f p v = .ok c →
      ∃ c1, codec_fill_params (stringcodec_parsed n k s g f p) = .ok c1 ∧
        c.symsize = c1.symsize ∧ c.gfpoly = c1.gfpoly ∧ c.fcr = c1.fcr ∧
        c.prim = c1.prim ∧ c.nroots = c1.nroots) := by
  have hne : ¬ ("ccsds" = "char") := by decide
  refine ⟨?_, ?_, ?_, ?_, ?_⟩
  · intro c hc
    obtain ⟨c1, -, -, -, -, -, -, -, -, -, -, -, hcase⟩ :=
      stringcodec_new_ok_inv hc
    rcases hcase with ⟨-, hud, h1, h2, h3⟩ | ⟨-, hud, h1, h2, h3, -⟩ |
      ⟨hv, -⟩
    · simp [hud, h1, h2, h3]
    · simp [hud, h1, h2, ← h3]
    · exact absurd hv.symm hne
  · intro c hc
    obtain ⟨c1, -, -, -, -, -, -, -, -, -, -, -, hcase⟩ :=
      stringcodec_new_ok_inv hc
    rcases hcase with ⟨hv, -⟩ | ⟨hv, -⟩ | ⟨-, hud, h1, -⟩
    · exact absurd hv hne
    · exact absurd hv hne
    · exact ⟨hud, h1⟩
  · intro c1 hfill hud
    simp only [stringcodec_parsed] at hfill
    unfold UsingDefaults at hud
    unfold stringcodec_new
    simp only [hfill, hne, if_false, if_true]
    simp [hud]
  · intro v h1 h2
    unfold stringcodec_new
    simp only
    split
    · exact ⟨_, rfl⟩
    · simp [h1, h2]
  · intro v c hc
    obtain ⟨c1, hfill, -, -, e3, e4, e5, e6, e7, -⟩ :=
      stringcodec_new_ok_inv hc
    exact ⟨c1, hfill, e3, e4, e5, e6, e7⟩

/-- C13, evaluated over `toyLibrs`: `Codec(20, 12)` has `nroots = 8` and gets
the general coder, `Codec(255, 223)` gets the fixed coder with `rs = NULL`
and `mask = 0`, `Codec(255, 223, variant='ccsds')` gets the CCSDS pair,
`Codec(20, 12, variant='ccsds')` and the variant int fail. -/
theorem stringcodec_new_variant_selection_witness :
    stringcodec_new toyLibrs 20 12 8 (-1) (-1) (-1) "char" = .ok toyCodec2012 ∧
    toyCodec2012.nroots = 8 ∧ toyCodec2012.coder = some .GENERAL_CHAR ∧
    (∃ c, stringcodec_new toyLibrs 255 223 8 (-1) (-1) (-1) "char" = .ok c ∧
      c.coder = some .CHAR ∧ c.rs = none ∧ c.mask = 0 ∧ c.nroots = 32) ∧
    (∃ c, stringcodec_new toyLibrs 255 223 8 (-1) (-1) (-1) "ccsds" = .ok c ∧
      c.coder = some .CCSDS) ∧
    stringcodec_new toyLibrs 20 12 8 (-1) (-1) (-1) "ccsds" =
      .error .ccsdsParams ∧
    (∃ e, stringcodec_new toyLibrs 20 12 8 (-1) (-1) (-1) "int" = .error e) :=
  ⟨rfl, rfl, rfl, ⟨_, rfl, rfl, rfl, rfl, rfl⟩, ⟨_, rfl, rfl⟩,
    (stringcodec_new_variant_selection toyLibrs 20 12 8 (-1) (-1) (-1)).2.2.1
      filled2012 rfl (by unfold UsingDefaults; decide),
    (stringcodec_new_variant_selection toyLibrs 20 12 8 (-1) (-1) (-1)).2.2.2.1
      "int" (by decide) (by decide)⟩

/-- C20, evaluated at a negative `k`. `Codec(20, -12)` is accepted whatever
the library does (the fixed coder is selected, since `nroots = 20 + 12 = 32`,
and no table is built): the object has `k = -12`. The three validation steps
also accept `n = 20`, `k = -1000` with `nroots = 1020`. What validation does
establish for every string codec is `k < n`, `2 ≤ n ≤ 255`, `nroots = n - k ≥ 1`,
and `nroots ≤ 255` whenever `k ≥ 0`. -/
theorem stringcodec_new_accepts_negative_k :
    (∀ L : Librs, ∃ c,
      stringcodec_new L 20 (-12) 8 (-1) (-1) (-1) "char" = .ok c ∧
      c.k = -12 ∧ c.n = 20 ∧ c.nroots = 32 ∧ c.coder = some .CHAR) ∧
    (∃ c1, codec_fill_params (stringcodec_parsed 20 (-1000) 8 (-1) (-1) (-1)) =
        .ok c1 ∧
      codec_check_params
        { c1 with coder := some .GENERAL_CHAR, variant := "char" } = .ok () ∧
      c1.nroots = 1020) ∧
    (∀ (L : Librs) (c : Codec), IsStringCodec L c →
      c.k < c.n ∧ 2 ≤ c.n ∧ c.n ≤ 255 ∧ c.nroots = c.n - c.k ∧ 1 ≤ c.nroots ∧
        (0 ≤ c.k → c.nroots ≤ 255)) := by
  refine ⟨fun L => ⟨_, rfl, rfl, rfl, rfl, rfl⟩, ⟨_, rfl, rfl, rfl⟩, ?_⟩
  intro L c hc
  have hinv := stringCodecInv_of_isStringCodec hc
  have h1 := hinv.k_lt
  have h2 := hinv.n_ge
  have h3 := hinv.n_le_255
  have h4 := hinv.nroots_eq
  refine ⟨h1, h2, h3, by omega, by omega, fun _ => by omega⟩

/-! ## The integer codec -/

theorem codec_fill_params_explicit (c0 : Codec) (hg : c0.gfpoly ≠ -1)
    (hf : c0.fcr ≠ -1) (hp : c0.prim ≠ -1) :
    codec_fill_params c0 = .ok { c0 with
      nroots := c0.n - c0.k, pad := shl 1 c0.symsize - c0.n - 1 } := by
  unfold codec_fill_params
  rw [if_neg (by simp [hg, hf, hp])]

/-- C12 with the bound of 16 fails: the integer codec
`IntegerCodec(20, 12, symsize=17, gfpoly=0x20009, fcr=1, prim=1)` passes
`codec_fill_params` and `codec_check_params`, and `intcodec_new` returns an
object for it. -/
theorem intcodec_symsize_17_counterexample :
    parsedInt17 = intcodec_parsed 20 12 17 0x20009 1 1 ∧
    16 < parsedInt17.symsize ∧
    (∃ c, codec_fill_params parsedInt17 = .ok c ∧
      codec_check_params c = .ok ()) ∧
    (∃ c, intcodec_new toyLibrs 20 12 17 0x20009 1 1 = .ok c ∧
      c.symsize = 17) :=
  ⟨rfl, by decide, ⟨_, rfl, rfl⟩, ⟨_, rfl, rfl⟩⟩

/-- C12, with the bound that the code enforces: for the integer codec with
explicitly given `gfpoly`, `fcr`, `prim`, `codec_fill_params` succeeds and
leaves `symsize` as it is, and `codec_check_params` rejects every filled
object with `symsize > 32`; an accepted object has `1 ≤ symsize ≤ 32`, so
does every object that `intcodec_new` returns; and for `1 ≤ symsize ≤ 30`
the filled object is accepted when `2 ≤ n ≤ 2 ^ symsize - 1` and `k < n`. -/
theorem intcodec_validation_symsize (n k s g f p : Int) (hg : g ≠ -1)
    (hf : f ≠ -1) (hp : p ≠ -1) :
    ∃ c, codec_fill_params (intcodec_parsed n k s g f p) = .ok c ∧
      c.symsize = s ∧
      (32 < s → codec_check_params c = .error .symsizeOver32) ∧
      (codec_check_params c = .ok () → 1 ≤ s ∧ s ≤ 32) ∧
      (1 ≤ s → s ≤ 30 → 2 ≤ n → n ≤ 2 ^ s.toNat - 1 → k < n →
        codec_check_params c = .ok ()) ∧
      (∀ (L : Librs) (c2 : Codec), intcodec_new L n k s g f p = .ok c2 →
        1 ≤ c2.symsize ∧ c2.symsize ≤ 32) := by
  have hfill := codec_fill_params_explicit (intcodec_parsed n k s g f p)
    hg hf hp
  have hchk32 : ∀ c : Codec, c.integertype = true →
      codec_check_params c = .ok () → 1 ≤ c.symsize ∧ c.symsize ≤ 32 := by
    intro c hi h
    unfold codec_check_params at h
    simp only [hi] at h
    repeat' split at h
    all_goals try cases h
    simp at *
    omega
  refine ⟨_, hfill, rfl, ?_, ?_, ?_, ?_⟩
  · intro h32
    unfold codec_check_params
    simp only [intcodec_parsed]
    rw [if_neg (by omega), if_pos (by simp; omega)]
  · intro h
    exact hchk32 _ rfl h
  · intro h1 h30 h2 hn hk
    unfold codec_check_params
    simp only [intcodec_parsed, shl_one_eq s (by omega) h30]
    rw [if_neg (by omega), if_neg (by simp; omega), if_neg (by simp),
      if_neg (by omega), if_neg (by omega), if_neg (by simp),
      if_neg (by omega), if_neg (by simp)]
  · intro L c2 h
    unfold intcodec_new at h
    simp only at h
    have hfill2 : codec_fill_params
        { coder := none, rs := none, integertype := true, n := n, k := k,
          symsize := s, gfpoly := g, fcr := f, prim := p, nroots := 0,
          pad := 0, mask := 0, variant := "int" } = _ := hfill
    rw [hfill2] at h
    simp only at h
    split at h
    · cases h
    · rename_i hchk
      split at h
      · cases h
      · cases h
        exact hchk32 _ rfl hchk

/-- C12 with the bound of the code, evaluated at `symsize = 33` and at
`symsize = 17`. -/
theorem intcodec_validation_symsize_witness :
    (∃ c, codec_fill_params (intcodec_parsed 20 12 33 0x20009 1 1) = .ok c ∧
      codec_check_params c = .error .symsizeOver32) ∧
    (∃ c, codec_fill_params (intcodec_parsed 20 12 17 0x20009 1 1) = .ok c ∧
      codec_check_params c = .ok ()) := by
  obtain ⟨c, h1, -, h2, -⟩ := intcodec_validation_symsize 20 12 33 0x20009 1 1
    (by decide) (by decide) (by decide)
  exact ⟨⟨c, h1, h2 (by decide)⟩, ⟨_, rfl, rfl⟩⟩

/-! ## Parity update, contract -/

/-- C16: `stringcodec_updatechunk` fails iff `|datadelta| ≠ |oldparity|`, or
`parityindex < k`, or `parityindex ≥ n`, or `dataindex < 0`, or
`dataindex ≥ k`; otherwise it returns a string of length `|oldparity|` whose
symbol `r` is `oldparity[r]` XOR symbol `parityindex - k` of the parity that
the encoder computes for the data vector that is zero except for
`datadelta[r]` at position `dataindex`, and `dataindex` lies in `[0, k)` and
`parityindex - k` in `[0, nroots)`. -/
theorem stringcodec_updatechunk_contract (L : Librs) (self : Codec)
    (di pi : Int) (datadelta oldparity : List Nat)
    (hc : IsStringCodec L self) :
    ((∃ e, stringcodec_updatechunk L self di datadelta pi oldparity =
        .error e) ↔
      (datadelta.length ≠ oldparity.length ∨ pi < self.k ∨ pi ≥ self.n ∨
        di < 0 ∨ di ≥ self.k)) ∧
    (¬ (datadelta.length ≠ oldparity.length ∨ pi < self.k ∨ pi ≥ self.n ∨
        di < 0 ∨ di ≥ self.k) →
      ∃ out, stringcodec_updatechunk L self di datadelta pi oldparity =
          .ok out ∧
        out.length = oldparity.length ∧
        (∀ r < oldparity.length, out.getD r 0 = oldparity.getD r 0 ^^^
          char_encode L self
            ((List.replicate self.k.toNat 0).set di.toNat (datadelta.getD r 0))
            (pi - self.k).toNat) ∧
        0 ≤ di ∧ di < self.k ∧ 0 ≤ pi - self.k ∧ pi - self.k < self.nroots) := by
  have hinv := stringCodecInv_of_isStringCodec hc
  have hnr := hinv.nroots_eq
  have hok : ¬ (datadelta.length ≠ oldparity.length ∨ pi < self.k ∨
      pi ≥ self.n ∨ di < 0 ∨ di ≥ self.k) →
      stringcodec_updatechunk L self di datadelta pi oldparity =
        .ok (update_rows L self di pi (List.replicate self.k.toNat 0)
          datadelta oldparity) := by
    intro h
    unfold stringcodec_updatechunk
    rw [if_neg (fun hh => h (Or.inl hh)), if_neg (by omega), if_neg (by omega),
      if_neg (by omega), if_neg (by omega)]
  constructor
  · constructor
    · rintro ⟨e, he⟩
      by_contra hno
      rw [hok hno] at he
      cases he
    · intro h
      unfold stringcodec_updatechunk
      by_cases h1 : datadelta.length ≠ oldparity.length
      · exact ⟨_, if_pos h1⟩
      · rw [if_neg h1]
        by_cases h2 : pi < self.k
        · exact ⟨_, if_pos h2⟩
        · rw [if_neg h2]
          by_cases h3 : pi ≥ self.n
          · exact ⟨_, if_pos h3⟩
          · rw [if_neg h3]
            by_cases h4 : di < 0
            · exact ⟨_, if_pos h4⟩
            · rw [if_neg h4]
              by_cases h5 : di ≥ self.k
              · exact ⟨_, if_pos h5⟩
              · exfalso
                rcases h with h | h | h | h | h
                · exact h1 h
                · exact h2 h
                · exact h3 h
                · exact h4 h
                · exact h5 h
  · intro h
    have hlen : datadelta.length = oldparity.length := by
      by_contra hh
      exact h (Or.inl hh)
    refine ⟨_, hok h, ?_, ?_, by omega, by omega, by omega, by omega⟩
    · rw [update_rows_eq L self di pi datadelta _ _ (fun _ => rfl)]
      simp [hlen]
    · intro r hr
      have hr' : r < datadelta.length := by omega
      rw [update_rows_eq L self di pi datadelta _ _ (fun _ => rfl)]
      simp only [List.getD_eq_getElem?_getD, List.getElem?_zipWith,
        List.getElem?_eq_getElem hr, List.getElem?_eq_getElem hr',
        Option.map, Option.bind, Option.getD_some]

/-- C16, evaluated on the 3-bit codec over `toyLibrs`: `updatechunk(0, 3, 3, 7)`
returns one symbol, 7 XOR 3 = 4, and a parity index below `k` fails. -/
theorem stringcodec_updatechunk_contract_witness :
    stringcodec_updatechunk toyLibrs toyCodec73 0 [3] 3 [7] = .ok [4] ∧
    stringcodec_updatechunk toyLibrs toyCodec73 0 [3] 2 [7] =
      .error .parityIndexLow ∧
    ((∃ e, stringcodec_updatechunk toyLibrs toyCodec73 0 [3] 2 [7] =
        .error e) ↔
      (([3] : List Nat).length ≠ ([7] : List Nat).length ∨
        (2 : Int) < toyCodec73.k ∨ (2 : Int) ≥ toyCodec73.n ∨ (0 : Int) < 0 ∨
        (0 : Int) ≥ toyCodec73.k)) :=
  ⟨rfl, rfl,
    (stringcodec_updatechunk_contract toyLibrs toyCodec73 0 2 [3] [7]
      toyCodec73_isStringCodec).1⟩

/-! ## Integer symbols -/

theorem ldiff_low_mask_eq_zero_iff (m s : Nat) :
    Nat.ldiff m (2 ^ s - 1) = 0 ↔ m < 2 ^ s := by
  constructor
  · intro h
    apply Nat.lt_pow_two_of_testBit
    intro i hi
    have := Nat.testBit_ldiff m (2 ^ s - 1) i
    rw [h, Nat.zero_testBit, Nat.testBit_two_pow_sub_one] at this
    have hdec : decide (i < s) = false := by simp; omega
    rw [hdec] at this
    simpa using this.symm
  · intro h
    apply Nat.eq_of_testBit_eq
    intro i
    rw [Nat.testBit_ldiff, Nat.zero_testBit, Nat.testBit_two_pow_sub_one]
    by_cases hi : i < s
    · simp [hi]
    · have hlt : m < 2 ^ i :=
        lt_of_lt_of_le h (Nat.pow_le_pow_right (by norm_num) (by omega))
      simp [Nat.testBit_lt_two_pow hlt]

theorem land_neg_mask_ne_zero_iff (v s : Int) (hs : 0 ≤ s) (hs31 : s ≤ 31) :
    Int.land v (shl (-1) s) ≠ 0 ↔ v < 0 ∨ (2 : Int) ^ s.toNat ≤ v := by
  obtain ⟨t, rfl⟩ : ∃ t : Nat, s = t := ⟨s.toNat, by omega⟩
  have hpos : 0 < 2 ^ t := Nat.two_pow_pos t
  have hmask : shl (-1) (t : Int) = Int.negSucc (2 ^ t - 1) := by
    have ht : (t : Int).toNat = t := Int.toNat_ofNat t
    have hle := two_pow_toNat_le (t : Int) 31 hs31
    have hpos2 : (0 : Int) < 2 ^ (t : Int).toNat := by positivity
    rw [ht] at hle hpos2
    norm_num at hle
    rw [shl_eq_of_fits (-1) (t : Int) hs hs31 (by rw [ht]; omega)
      (by rw [ht]; omega), ht, Int.negSucc_eq]
    have : ((2 ^ t - 1 : Nat) : Int) = (2 : Int) ^ t - 1 := by
      rw [Nat.cast_sub hpos]; simp
    rw [this]; ring
  rw [hmask]
  simp only [Int.toNat_ofNat]
  cases v with
  | ofNat m =>
    have hland : Int.land (Int.ofNat m) (Int.negSucc (2 ^ t - 1)) =
        ((Nat.ldiff m (2 ^ t - 1) : Nat) : Int) := rfl
    rw [hland]
    have key := ldiff_low_mask_eq_zero_iff m t
    have hcast : ((2 : Int) ^ t ≤ Int.ofNat m) ↔ 2 ^ t ≤ m := by
      simp only [Int.ofNat_eq_coe]
      exact_mod_cast Iff.rfl
    rw [hcast]
    have hnn : ¬ (Int.ofNat m < 0) := by simp
    simp only [hnn, false_or, ne_eq, Nat.cast_eq_zero, key]
    omega
  | negSucc m =>
    have hland : Int.land (Int.negSucc m) (Int.negSucc (2 ^ t - 1)) =
        Int.negSucc (m ||| (2 ^ t - 1)) := rfl
    rw [hland]
    have hneg : Int.negSucc m < 0 := Int.negSucc_lt_zero m
    simp [hneg]

theorem intcodec_make_array_eq (self : Codec) (src : List Int)
    (h : ∀ v ∈ src, Int.land v self.mask = 0) :
    intcodec_make_array self src = .ok src := by
  induction src with
  | nil => rfl
  | cons v rest ih =>
    unfold intcodec_make_array
    rw [if_neg (by simp [h v (List.mem_cons_self _ _)]),
      ih (fun w hw => h w (List.mem_cons_of_mem _ hw))]

theorem intcodec_make_array_error (self : Codec) (src : List Int)
    (h : ∃ v ∈ src, Int.land v self.mask ≠ 0) :
    intcodec_make_array self src = .error .symbolRange := by
  induction src with
  | nil => simp at h
  | cons v rest ih =>
    unfold intcodec_make_array
    by_cases hv : Int.land v self.mask ≠ 0
    · rw [if_pos hv]
    · rw [if_neg hv, ih]
      obtain ⟨w, hw, hbad⟩ := h
      rcases List.mem_cons.1 hw with rfl | hw
      · exact absurd hbad hv
      · exact ⟨w, hw, hbad⟩

theorem intcodec_new_mask {L : Librs} {n k s g f p : Int} {c : Codec}
    (h : intcodec_new L n k s g f p = .ok c) :
    c.mask = shl (-1) c.symsize ∧ c.integertype = true := by
  unfold intcodec_new at h
  simp only at h
  split at h
  · cases h
  · rename_i c1 hfill
    have hi := (codec_fill_params_ok hfill).2.2.2.1
    split at h
    · cases h
    · split at h
      · cases h
      · cases h
        exact ⟨rfl, hi⟩

/-- C17: for the integer codec with `1 ≤ symsize ≤ 16` and the mask
`(-1) << symsize`, a symbol `v` has a bit of the mask set iff `v < 0` or
`v ≥ 2 ^ symsize`; `intcodec_make_array` succeeds iff every symbol `v` of the
sequence has `0 ≤ v < 2 ^ symsize`, it raises the range error as soon as one
symbol is negative or `≥ 2 ^ symsize`, and on success the array is the input
sequence. -/
theorem intcodec_make_array_contract (self : Codec) (src : List Int)
    (h1 : 1 ≤ self.symsize) (_h16 : self.symsize ≤ 16)
    (hm : self.mask = shl (-1) self.symsize) :
    (∀ v : Int, Int.land v self.mask ≠ 0 ↔
      v < 0 ∨ (2 : Int) ^ self.symsize.toNat ≤ v) ∧
    ((∃ data, intcodec_make_array self src = .ok data) ↔
      ∀ v ∈ src, 0 ≤ v ∧ v < (2 : Int) ^ self.symsize.toNat) ∧
    ((∃ v ∈ src, v < 0 ∨ (2 : Int) ^ self.symsize.toNat ≤ v) →
      intcodec_make_array self src = .error .symbolRange) ∧
    (∀ data, intcodec_make_array self src = .ok data → data = src) := by
  have hbit : ∀ v : Int, Int.land v self.mask ≠ 0 ↔
      v < 0 ∨ (2 : Int) ^ self.symsize.toNat ≤ v := by
    intro v
    rw [hm]
    exact land_neg_mask_ne_zero_iff v self.symsize (by omega) (by omega)
  have herr : (∃ v ∈ src, v < 0 ∨ (2 : Int) ^ self.symsize.toNat ≤ v) →
      intcodec_make_array self src = .error .symbolRange := by
    rintro ⟨v, hv, hbad⟩
    exact intcodec_make_array_error self src ⟨v, hv, (hbit v).2 hbad⟩
  have hok : (∀ v ∈ src, 0 ≤ v ∧ v < (2 : Int) ^ self.symsize.toNat) →
      intcodec_make_array self src = .ok src := by
    intro h
    apply intcodec_make_array_eq
    intro v hv
    by_contra hne
    have := (hbit v).1 hne
    have := h v hv
    omega
  have hcases : intcodec_make_array self src = .ok src ∨
      intcodec_make_array self src = .error .symbolRange := by
    by_cases h : ∀ v ∈ src, 0 ≤ v ∧ v < (2 : Int) ^ self.symsize.toNat
    · exact Or.inl (hok h)
    · right
      apply herr
      by_contra hno
      apply h
      intro v hv
      by_contra hbad
      exact hno ⟨v, hv, by omega⟩
  refine ⟨hbit, ?_, herr, ?_⟩
  · constructor
    · rintro ⟨data, hdata⟩ v hv
      by_contra hbad
      rw [herr ⟨v, hv, by omega⟩] at hdata
      cases hdata
    · intro h
      exact ⟨src, hok h⟩
  · intro data hdata
    rcases hcases with h | h
    · rw [h] at hdata
      cases hdata
      rfl
    · rw [h] at hdata
      cases hdata

/-- C17, evaluated on `IntegerCodec(20, 12, symsize=10)` over `toyLibrs`: the
mask is -1024; the sequence 0, 1023 is accepted and 1024 and -1 are
rejected. -/
theorem intcodec_make_array_contract_witness :
    intcodec_new toyLibrs 20 12 10 (-1) (-1) (-1) = .ok toyIntCodec10 ∧
    toyIntCodec10.mask = -1024 ∧
    intcodec_make_array toyIntCodec10 [0, 1023] = .ok [0, 1023] ∧
    intcodec_make_array toyIntCodec10 [0, 1024] = .error .symbolRange ∧
    intcodec_make_array toyIntCodec10 [-1] = .error .symbolRange := by
  have h1 := intcodec_make_array_contract toyIntCodec10 [0, 1023] (by decide)
    (by decide) rfl
  have h2 := intcodec_make_array_contract toyIntCodec10 [0, 1024] (by decide)
    (by decide) rfl
  have h3 := intcodec_make_array_contract toyIntCodec10 [-1] (by decide)
    (by decide) rfl
  refine ⟨rfl, rfl, ?_, ?_, ?_⟩
  · obtain ⟨data, hdata⟩ := h1.2.1.2 (by
      intro v hv
      simp only [List.mem_cons, List.mem_singleton, List.not_mem_nil,
        or_false] at hv
      rcases hv with rfl | rfl <;> decide)
    rw [hdata, h1.2.2.2 data hdata]
  · exact h2.2.2.1 ⟨1024, by simp, Or.inr (by decide)⟩
  · exact h3.2.2.1 ⟨-1, by simp, Or.inl (by decide)⟩

/-! ## The CCSDS wrapper and `mod255` -/

theorem fixed_coder_geometry {L : Librs} {c : Codec} (hc : IsStringCodec L c)
    (hfixed : c.coder = some .CHAR ∨ c.coder = some .CCSDS) :
    UsingDefaults c ∧ c.n = 255 - c.pad ∧ c.k = c.n - 32 ∧
      NN - NROOTS - c.pad = c.k ∧ 0 ≤ c.pad ∧ c.pad ≤ 253 := by
  have hinv := stringCodecInv_of_isStringCodec hc
  obtain ⟨n, k, s, g, f, p, v, hnew⟩ := hc
  obtain ⟨c1, -, -, -, -, -, -, -, -, -, -, -, hcase⟩ :=
    stringcodec_new_ok_inv hnew
  have hud : UsingDefaults c := by
    rcases hcase with ⟨-, hud, -⟩ | ⟨-, -, h1, -⟩ | ⟨-, hud, -⟩
    · exact hud
    · rcases hfixed with h | h <;> rw [h1] at h <;> cases h
    · exact hud
  have hpad := hinv.pad_eq
  have hnr := hinv.nroots_eq
  have hn := hinv.n_ge
  have hn255 := hinv.n_le_255
  have h8 := hud.1
  have h32 := hud.2.2.2.2
  have h256 : (2 : Int) ^ (8 : Int).toNat = 256 := by decide
  rw [h8, h256] at hpad
  simp only [NN, NROOTS]
  refine ⟨hud, ?_, ?_, ?_, ?_, ?_⟩ <;> omega

/-- C18: `encode_rs_ccsds(data, parity, pad)` for `0 ≤ pad ≤ 223`. The scratch
buffer receives exactly `NN - NROOTS - pad = 223 - pad` symbols, symbol `i`
being `Tal1tab[data[i]]`; this count is `n - 32` for `n = 255 - pad`, and it is
the `k` of every string codec that holds the fixed or the CCSDS function pair;
the caller's data is the same after the call; and for every `i < 32` the
returned `parity[i]` is `Taltab[p[i]]`, where `p` is the parity that the fixed
8-bit encoder computes for the scratch buffer with the same `pad`. -/
theorem encode_rs_ccsds_contract (L : Librs) (data : List Nat) (pad : Int)
    (h0 : 0 ≤ pad) (h223 : pad ≤ 223) :
    ((ccsds_cdata L data pad).length : Int) = NN - NROOTS - pad ∧
    NN - NROOTS - pad = 223 - pad ∧ 223 - pad = (255 - pad) - 32 ∧
    (∀ i : Nat, (i : Int) < 223 - pad →
      (ccsds_cdata L data pad).getD i 0 = L.Tal1tab (data.getD i 0)) ∧
    (∀ c : Codec, IsStringCodec L c →
      c.coder = some .CHAR ∨ c.coder = some .CCSDS →
      c.n = 255 - c.pad ∧ c.k = c.n - 32 ∧ NN - NROOTS - c.pad = c.k) ∧
    (encode_rs_ccsds L data pad).data = data ∧
    (∀ i : Nat, i < 32 → (encode_rs_ccsds L data pad).parity i =
      L.Taltab (L.encode_rs_8 (ccsds_cdata L data pad) pad i)) := by
  refine ⟨?_, by simp only [NN, NROOTS]; omega, by omega, ?_, ?_, rfl, ?_⟩
  · simp only [ccsds_cdata, List.length_map, List.length_range, NN, NROOTS]
    omega
  · intro i hi
    have hi' : i < (NN - NROOTS - pad).toNat := by
      simp only [NN, NROOTS]; omega
    simp only [ccsds_cdata, List.getD_eq_getElem?_getD, List.getElem?_map,
      List.getElem?_range hi', Option.map_some', Option.getD_some]
  · intro c hc hfixed
    obtain ⟨-, h1, h2, h3, -⟩ := fixed_coder_geometry hc hfixed
    exact ⟨h1, h2, h3⟩
  · intro i hi
    have hi' : (i : Int) < NROOTS := by simp only [NROOTS]; omega
    simp only [encode_rs_ccsds, hi', if_true]

/-- C18, evaluated over `toyLibrs` with `pad = 220`: three data symbols are
converted and every parity symbol is their XOR. -/
theorem encode_rs_ccsds_contract_witness :
    ccsds_cdata toyLibrs [1, 2, 4] 220 = [1, 2, 4] ∧
    ((ccsds_cdata toyLibrs [1, 2, 4] 220).length : Int) = NN - NROOTS - 220 ∧
    (encode_rs_ccsds toyLibrs [1, 2, 4] 220).data = [1, 2, 4] ∧
    (encode_rs_ccsds toyLibrs [1, 2, 4] 220).parity 31 = 7 :=
  have h := encode_rs_ccsds_contract toyLibrs [1, 2, 4] 220 (by decide)
    (by decide)
  ⟨rfl, h.1, h.2.2.2.2.2.1, rfl⟩

theorem mod255_step_spec (x : Int) (h : 255 ≤ x) :
    mod255_step x = (x - 255) / 256 + (x - 255) % 256 ∧
      0 ≤ mod255_step x ∧ mod255_step x < x ∧
      mod255_step x % 255 = x % 255 := by
  obtain ⟨m, hm⟩ : ∃ m : Nat, x - 255 = (m : Int) :=
    ⟨(x - 255).toNat, by omega⟩
  have h1 : ((m : Int) >>> 8) = ((m >>> 8 : Nat) : Int) := rfl
  have h2 : Int.land (m : Int) 255 = ((m &&& 255 : Nat) : Int) := rfl
  have h3 : m >>> 8 = m / 256 := Nat.shiftRight_eq_div_pow m 8
  have h4 : m &&& 255 = m % 256 := Nat.and_pow_two_sub_one_eq_mod m 8
  have hstep : mod255_step x = (x - 255) / 256 + (x - 255) % 256 := by
    simp only [mod255_step, hm, h1, h2, h3, h4]
    push_cast
    rfl
  rw [hstep]
  refine ⟨rfl, by omega, by omega, by omega⟩

theorem mod255_of_lt (x : Int) (h : x < 255) : mod255 x = x := by
  rw [mod255, if_neg (by omega)]

theorem mod255_eq_emod : ∀ (fuel : Nat) (x : Int), x.toNat ≤ fuel → 0 ≤ x →
    mod255 x = x % 255 := by
  intro fuel
  induction fuel with
  | zero =>
    intro x hx h0
    have : x = 0 := by omega
    subst this
    rw [mod255_of_lt 0 (by decide)]
    rfl
  | succ fuel ih =>
    intro x hx h0
    by_cases h : 255 ≤ x
    · obtain ⟨-, hs0, hslt, hsmod⟩ := mod255_step_spec x h
      rw [mod255, if_pos h, ih (mod255_step x) (by omega) hs0, hsmod]
    · rw [mod255_of_lt x (by omega)]
      omega

/-- C19: `mod255` is total. For `x ≥ 0` it returns `x mod 255`, a value in
`[0, 255)`; an iteration on `x ≥ 255` replaces `x` by
`((x - 255) >> 8) + ((x - 255) & 255)`, which is not negative, strictly
smaller than `x` and congruent to `x` modulo 255; for `x < 255`, negative `x`
included, it returns `x`. -/
theorem mod255_contract (x : Int) :
    (0 ≤ x → mod255 x = x % 255 ∧ 0 ≤ mod255 x ∧ mod255 x < 255) ∧
    (255 ≤ x → mod255 x = mod255 (mod255_step x) ∧
      mod255_step x = ((x - 255) >>> 8) + Int.land (x - 255) 255 ∧
      0 ≤ mod255_step x ∧ mod255_step x < x ∧
      mod255_step x % 255 = x % 255) ∧
    (x < 255 → mod255 x = x) := by
  refine ⟨?_, ?_, mod255_of_lt x⟩
  · intro h0
    rw [mod255_eq_emod x.toNat x (le_refl _) h0]
    refine ⟨rfl, by omega, by omega⟩
  · intro h
    obtain ⟨-, hs0, hslt, hsmod⟩ := mod255_step_spec x h
    refine ⟨?_, rfl, hs0, hslt, hsmod⟩
    rw [mod255, if_pos h]

/-- C19, evaluated: `mod255 1000 = 235`, `mod255 510 = 0` and
`mod255 (-7) = -7`. -/
theorem mod255_contract_witness :
    mod255 1000 = 235 ∧ mod255 510 = 0 ∧ mod255 (-7) = -7 :=
  ⟨by rw [((mod255_contract 1000).1 (by decide)).1]; rfl,
    by rw [((mod255_contract 510).1 (by decide)).1]; rfl,
    (mod255_contract (-7)).2.2 (by decide)⟩

/-! ## The constants of fixed.h -/

/-- C21: the constants of the fixed coder agree with the facade.
`NN = 2 ^ MM - 1 = 255`; `IPRIM` is the inverse of `PRIM` modulo `NN`
(`11 * 116 mod 255 = 1`, and 116 is the only such residue);
`(MM, FCR, PRIM, NROOTS) = (8, 112, 11, 32)`; `FCR` and `PRIM` are the
`fcr` and `prim` of row `MM` of the default table; and the tuple for which
`stringcodec_new` selects the fixed coder is `symsize = MM`, the `gfpoly` of
that row, `fcr = FCR`, `prim = PRIM`, `nroots = NROOTS`. -/
theorem fixed_constants_consistent :
    NN = 2 ^ MM.toNat - 1 ∧ NN = 255 ∧
    (PRIM * IPRIM) % NN = 1 ∧ 0 ≤ IPRIM ∧ IPRIM < NN ∧
    (∀ y : Int, 0 ≤ y → y < NN → (PRIM * y) % NN = 1 → y = IPRIM) ∧
    (MM, FCR, PRIM, NROOTS) = (8, 112, 11, 32) ∧
    (default_rs_parameter MM).fcr = FCR ∧
    (default_rs_parameter MM).prim = PRIM ∧
    (default_rs_parameter MM).gfpoly = 0x187 ∧
    (∀ c : Codec, UsingDefaults c ↔
      c.symsize = MM ∧ c.gfpoly = (default_rs_parameter MM).gfpoly ∧
        c.fcr = FCR ∧ c.prim = PRIM ∧ c.nroots = NROOTS) ∧
    (∀ (L : Librs) (n k s g f p : Int) (c : Codec),
      stringcodec_new L n k s g f p "char" = .ok c →
      (c.coder = some .CHAR ↔
        c.symsize = MM ∧ c.gfpoly = (default_rs_parameter MM).gfpoly ∧
          c.fcr = FCR ∧ c.prim = PRIM ∧ c.nroots = NROOTS)) := by
  have hrow : default_rs_parameter MM = ⟨0x187, 112, 11⟩ := by decide
  have hud : ∀ c : Codec, UsingDefaults c ↔
      c.symsize = MM ∧ c.gfpoly = (default_rs_parameter MM).gfpoly ∧
        c.fcr = FCR ∧ c.prim = PRIM ∧ c.nroots = NROOTS := by
    intro c
    rw [hrow]
    simp only [UsingDefaults, MM, FCR, PRIM, NROOTS]
  refine ⟨by decide, rfl, by decide, by decide, by decide, ?_, rfl, by decide,
    by decide, by decide, hud, ?_⟩
  · intro y h0 hlt h
    simp only [NN, PRIM, IPRIM] at *
    omega
  · intro L n k s g f p c hc
    rw [← hud]
    have hne : ¬ ("ccsds" = "char") := by decide
    obtain ⟨c1, -, -, -, -, -, -, -, -, -, -, -, hcase⟩ :=
      stringcodec_new_ok_inv hc
    rcases hcase with ⟨-, h1, h2, -⟩ | ⟨-, h1, h2, -⟩ | ⟨hv, -⟩
    · simp [h1, h2]
    · simp [h1, h2]
    · exact absurd hv.symm hne

/-! ## Corrections of a single codeword -/

theorem convert_corrections_congr (self : Codec) (p q : Nat → Int)
    (js : List Nat) (h : ∀ j ∈ js, p j = q j) :
    convert_corrections self p js = convert_corrections self q js := by
  induction js with
  | nil => rfl
  | cons j rest ih =>
    unfold convert_corrections
    simp only
    rw [h j (List.mem_cons_self _ _),
      ih (fun x hx => h x (List.mem_cons_of_mem _ hx))]

theorem pad_add_n_of_isStringCodec {L : Librs} {self : Codec}
    (hc : IsStringCodec L self) :
    self.pad + self.n = 2 ^ self.symsize.toNat - 1 := by
  have h := (stringCodecInv_of_isStringCodec hc).pad_eq
  omega

/-- C3: let the decoder report `count ≥ 0` corrections at the positions
`eras_pos[0 .. count)`, each in `[0, NN)` with `NN = 2 ^ symsize - 1`, for a
codec object with the pad invariant `pad + n = NN`, which every string codec
has. Then
`convert_decode_result` either raises the Uncorrectable error or returns the
output with a corrections list of exactly `count` entries, entry `i` being
`eras_pos[i] - pad`, in `[0, n)`; it raises the Uncorrectable error iff some
de-padded index is below 0 or `≥ n`. `stringcodec_decode`, for an accepted
word and erasure list and `k ≥ 0`, returns what `convert_decode_result`
returns for the report of the decoder. -/
theorem convert_decode_result_contract (self : Codec) (output : List Nat)
    (eras_pos : Nat → Int) (count : Int) (hcount : 0 ≤ count)
    (hpad : self.pad + self.n = 2 ^ self.symsize.toNat - 1)
    (hpos : ∀ i : Nat, (i : Int) < count →
      0 ≤ eras_pos i ∧ eras_pos i < 2 ^ self.symsize.toNat - 1) :
    (convert_decode_result self output eras_pos count =
        .error .corruptedInput ∨
      ∃ corr, convert_decode_result self output eras_pos count =
          .ok (output, corr) ∧
        (corr.length : Int) = count ∧
        ∀ i : Nat, (i : Int) < count →
          corr[i]? = some (eras_pos i - self.pad) ∧
          0 ≤ eras_pos i - self.pad ∧ eras_pos i - self.pad < self.n) ∧
    (convert_decode_result self output eras_pos count =
        .error .corruptedInput ↔
      ∃ i : Nat, (i : Int) < count ∧
        (eras_pos i - self.pad < 0 ∨ eras_pos i - self.pad ≥ self.n)) ∧
    RsError.isUncorrectable .corruptedInput = true ∧
    (∀ (L : Librs) (src : List Nat) (erasures : Option (List Int))
        (ea : ErasureArray),
      (src.length : Int) = self.n →
      stringcodec_checksymbols self src = .ok () →
      create_erasure_array self erasures = .ok ea → 0 ≤ self.k →
      (char_decode L self src ea.eras_pos ea.no_eras).count = count →
      (∀ i : Nat, (i : Int) < count →
        (char_decode L self src ea.eras_pos ea.no_eras).eras_pos i =
          eras_pos i) →
      output = (List.range self.k.toNat).map
        (char_decode L self src ea.eras_pos ea.no_eras).data →
      stringcodec_decode L self src erasures =
        convert_decode_result self output eras_pos count) := by
  have hupper : ∀ i : Nat, (i : Int) < count →
      eras_pos i - self.pad < self.n := by
    intro i hi
    have := (hpos i hi).2
    omega
  have hgood : (¬ ∃ i : Nat, (i : Int) < count ∧ eras_pos i - self.pad < 0) →
      convert_decode_result self output eras_pos count =
        .ok (output, (List.range count.toNat).map
          (fun j => eras_pos j - self.pad)) := by
    intro hno
    unfold convert_decode_result
    rw [if_neg (by omega), convert_corrections_ok]
    intro j hj
    by_contra hneg
    exact hno ⟨j, (mem_range_toNat hcount j).1 hj, by omega⟩
  have hbad : (∃ i : Nat, (i : Int) < count ∧ eras_pos i - self.pad < 0) →
      convert_decode_result self output eras_pos count =
        .error .corruptedInput := by
    rintro ⟨i, hi, hneg⟩
    unfold convert_decode_result
    rw [if_neg (by omega), convert_corrections_error]
    exact ⟨i, (mem_range_toNat hcount i).2 hi, hneg⟩
  refine ⟨?_, ?_, rfl, ?_⟩
  · by_cases hex : ∃ i : Nat, (i : Int) < count ∧ eras_pos i - self.pad < 0
    · exact Or.inl (hbad hex)
    · refine Or.inr ⟨_, hgood hex, ?_, ?_⟩
      · rw [List.length_map, List.length_range]
        omega
      · intro i hi
        have hlt : i < count.toNat := by omega
        refine ⟨?_, ?_, hupper i hi⟩
        · rw [List.getElem?_map, List.getElem?_range hlt]
          rfl
        · by_contra hneg
          exact hex ⟨i, hi, by omega⟩
  · constructor
    · intro herr
      by_contra hno
      have hex : ¬ ∃ i : Nat, (i : Int) < count ∧
          eras_pos i - self.pad < 0 := by
        rintro ⟨i, hi, hneg⟩
        exact hno ⟨i, hi, Or.inl hneg⟩
      rw [hgood hex] at herr
      cases herr
    · rintro ⟨i, hi, hb⟩
      rcases hb with hneg | hge
      · exact hbad ⟨i, hi, hneg⟩
      · have := hupper i hi
        omega
  · intro L src erasures ea hlen hchk hea hk hcnt hrep hout
    unfold stringcodec_decode
    simp only [ne_eq, hlen, not_true_eq_false, if_false, hchk, hea]
    rw [if_neg (by omega), if_neg (by omega), hcnt, ← hout]
    unfold convert_decode_result
    rw [convert_corrections_congr self _ eras_pos (List.range count.toNat)
      (fun j hj => hrep j ((mem_range_toNat hcount j).1 hj))]

/-- C3, evaluated on the codec with `n = 20`, `pad = 235` over `toyLibrs`: the
report of one correction at position 240 gives the corrections list `[5]`,
also through `stringcodec_decode` with the erasure 5, and the report of one
correction at position 100, which lies in the pad, raises the Uncorrectable
error. -/
theorem convert_decode_result_contract_witness :
    toyCodec2012.pad + toyCodec2012.n = 2 ^ toyCodec2012.symsize.toNat - 1 ∧
    convert_decode_result toyCodec2012 (List.replicate 12 0)
      (fun i => ([240] : List Int).getD i 0) 1 =
        .ok (List.replicate 12 0, [5]) ∧
    stringcodec_decode toyLibrs toyCodec2012 (List.replicate 20 0) (some [5]) =
      convert_decode_result toyCodec2012 (List.replicate 12 0)
        (fun i => ([240] : List Int).getD i 0) 1 ∧
    convert_decode_result toyCodec2012 [] (fun _ => 100) 1 =
      .error .corruptedInput :=
  have h := convert_decode_result_contract toyCodec2012 (List.replicate 12 0)
    (fun i => ([240] : List Int).getD i 0) 1 (by decide) (by decide)
    (fun i hi => by
      have hi0 : i = 0 := by omega
      subst hi0
      decide)
  have h2 := convert_decode_result_contract toyCodec2012 []
    (fun _ => 100) 1 (by decide) (by decide) (fun _ _ => by
      show (0 : Int) ≤ 100 ∧ (100 : Int) < 2 ^ toyCodec2012.symsize.toNat - 1
      decide)
  ⟨by decide, rfl,
    h.2.2.2 toyLibrs (List.replicate 20 0) (some [5]) ⟨[240], 1, 32⟩
      (by decide) rfl rfl (by decide) rfl (fun _ _ => rfl) rfl,
    h2.2.1.2 ⟨0, by decide, Or.inl (by decide)⟩⟩

end ReedSolomon
